import Mathlib

/-!
Verification of werbenhu/shardmap, a sharded key/value map.

A shallow embedding of `shardmap.go` and theorems about it.

* Go strings are byte sequences (`List UInt8`).
* A key of type `any` is a tagged value: one constructor for each case of the
  type switch in `fnv1a32`, and `Key.other` for every other dynamic type.
* `int`, `uint` and `uintptr` are 32 or 64 bits wide depending on the target
  (`Arch`); integer conversions wrap as the Go specification prescribes.
* A panic is an `Except.error`.
* `sync.Map` (standard library) is modelled by its sequential behaviour: a
  finite list of entries with pairwise different keys, keys compared as Go
  compares interface values (same dynamic type and same value).
* The goroutines started by `Len`, `Range` and `Clear` are run one after the
  other in shard order; each works on its own shard.
-/

namespace Shardmap

deriving instance DecidableEq for Except

/-! ## Constants -/

def ShardCount : Nat := 32
def offset32 : Nat := 2166136261
def prime32 : Nat := 16777619

/-! ## Go values -/

/-- Target word size: width of `int`, `uint` and `uintptr`. -/
inductive Arch where
  | bits32
  | bits64
deriving DecidableEq, Repr

/-- Number of bits of `int` on the target (`strconv.IntSize`). -/
def Arch.intSize : Arch → Nat
  | .bits32 => 32
  | .bits64 => 64

/-- Go string: an immutable sequence of bytes. -/
abbrev GoString := List UInt8

/-- Bytes of a string literal (Go source text is UTF-8). -/
def utf8 (s : String) : GoString := s.data.flatMap String.utf8EncodeChar

/-- Conversion of an integer to a signed type of `w` bits: the value is
truncated to `w` bits and read in two's complement. -/
def toSigned (w : Nat) (v : Int) : Int := (v + 2 ^ (w - 1)) % 2 ^ w - 2 ^ (w - 1)

/-- Conversion of a non-negative integer to an unsigned type of `w` bits. -/
def toUnsigned (w : Nat) (v : Nat) : Nat := v % 2 ^ w

/-- A key as stored in an `any`: its dynamic type and its value. -/
inductive Key where
  | string (v : GoString)
  | int (v : Int)
  | int8 (v : Int)
  | int16 (v : Int)
  | int32 (v : Int)
  | int64 (v : Int)
  | uint (v : Nat)
  | uint8 (v : Nat)
  | uint16 (v : Nat)
  | uint32 (v : Nat)
  | uint64 (v : Nat)
  | uintptr (v : Nat)
  | other (tag : Nat)
deriving DecidableEq, Repr

/-- The key has one of the dynamic types listed in the type switch. -/
def Key.Supported : Key → Prop
  | .other _ => False
  | _ => True

instance (k : Key) : Decidable k.Supported := by
  cases k <;> unfold Key.Supported <;> infer_instance

/-- The value of the key fits its dynamic type on the target. -/
def Key.Valid (arch : Arch) : Key → Prop
  | .string _ => True
  | .int v => -(2 ^ (arch.intSize - 1) : Int) ≤ v ∧ v < 2 ^ (arch.intSize - 1)
  | .int8 v => -(2 ^ 7 : Int) ≤ v ∧ v < 2 ^ 7
  | .int16 v => -(2 ^ 15 : Int) ≤ v ∧ v < 2 ^ 15
  | .int32 v => -(2 ^ 31 : Int) ≤ v ∧ v < 2 ^ 31
  | .int64 v => -(2 ^ 63 : Int) ≤ v ∧ v < 2 ^ 63
  | .uint v => v < 2 ^ arch.intSize
  | .uint8 v => v < 2 ^ 8
  | .uint16 v => v < 2 ^ 16
  | .uint32 v => v < 2 ^ 32
  | .uint64 v => v < 2 ^ 64
  | .uintptr v => v < 2 ^ arch.intSize
  | .other _ => True

instance (arch : Arch) (k : Key) : Decidable (k.Valid arch) := by
  cases k <;> unfold Key.Valid <;> infer_instance

/-- The integer denoted by an integer key. -/
def Key.intValue : Key → Option Int
  | .int v | .int8 v | .int16 v | .int32 v | .int64 v => some v
  | .uint v | .uint8 v | .uint16 v | .uint32 v | .uint64 v | .uintptr v => some (v : Int)
  | _ => none

/-- Panics of the program. -/
inductive Fault where
  | unsupportedKeyType
  | indexOutOfRange
  | nilPointer
deriving DecidableEq, Repr

/-! ## strconv (standard library) -/

/-- ASCII code of the decimal digit `d`. -/
def digitByte (d : Nat) : UInt8 := UInt8.ofNat (48 + d)

/-- Digits of `u` in base 10, most significant first, pushed in front of `acc`. -/
def formatBits : Nat → Nat → GoString → GoString
  | 0, _, acc => acc
  | fuel + 1, u, acc =>
    if u < 10 then digitByte u :: acc
    else formatBits fuel (u / 10) (digitByte (u % 10) :: acc)

/-- Go `strconv.FormatUint(i, 10)`. -/
def FormatUint (i : Nat) : GoString := formatBits (i + 1) i []

/-- Go `strconv.Itoa(i)`: `FormatInt(int64(i), 10)`. -/
def Itoa (i : Int) : GoString :=
  if i < 0 then 45 :: FormatUint i.natAbs else FormatUint i.natAbs

/-! ## fnv1a32 -/

/-- The type switch of `fnv1a32`: the string that is hashed. -/
def strKey (arch : Arch) : Key → Except Fault GoString
  | .string v => pure v
  | .int v => pure (Itoa v)
  | .int8 v => pure (Itoa (toSigned arch.intSize v))
  | .int16 v => pure (Itoa (toSigned arch.intSize v))
  | .int32 v => pure (Itoa (toSigned arch.intSize v))
  | .int64 v => pure (Itoa (toSigned arch.intSize v))
  | .uint v => pure (FormatUint (toUnsigned 64 v))
  | .uint8 v => pure (FormatUint (toUnsigned 64 v))
  | .uint16 v => pure (FormatUint (toUnsigned 64 v))
  | .uint32 v => pure (FormatUint (toUnsigned 64 v))
  | .uint64 v => pure (FormatUint v)
  | .uintptr v => pure (FormatUint (toUnsigned 64 v))
  | .other _ => throw Fault.unsupportedKeyType

/-- The loop of `fnv1a32`: `for i := 0; i < keyLength; i++`, with `hash` a
`uint32`. `fuel` bounds the number of iterations. -/
def hashLoop (strKey : GoString) (keyLength : Nat) : Nat → Nat → Nat → Nat
  | 0, _, hash => hash
  | fuel + 1, i, hash =>
    if i < keyLength then
      match strKey[i]? with
      | some b => hashLoop strKey keyLength fuel (i + 1) ((hash * prime32 % 2 ^ 32) ^^^ b.toNat)
      | none => hash
    else hash

/-- Hash of a string: the second half of `fnv1a32`. -/
def hashString (s : GoString) : Nat := hashLoop s s.length s.length 0 (offset32 % 2 ^ 32)

/-- Go `fnv1a32(key)`. -/
def fnv1a32 (arch : Arch) (key : Key) : Except Fault Nat := do
  let s ← strKey arch key
  pure (hashString s)

/-- Go `uint(x)`. -/
def toUint (arch : Arch) (x : Nat) : Nat := toUnsigned arch.intSize x

/-- The index computed by `getShard`: `uint(fnv1a32(key)) % uint(ShardCount)`. -/
def shardIndex (arch : Arch) (key : Key) : Except Fault Nat := do
  let h ← fnv1a32 arch key
  pure (toUint arch h % toUint arch ShardCount)

/-- The hash as the specification words it: start from 2166136261 and, for each
byte in order, multiply by 16777619 modulo `2^32`, then XOR with the byte. -/
def referenceHash (s : GoString) : Nat :=
  s.foldl (fun hash b => (hash * 16777619 % 2 ^ 32) ^^^ b.toNat) 2166136261

/-- Number written by a string of decimal digits. -/
def decimalValue (s : GoString) : Nat := s.foldl (fun acc b => acc * 10 + (b.toNat - 48)) 0

/-- The string `s` is the base-10 rendering of the natural number `n`: digits
only, at least one, no leading zero, and they write `n`. -/
def IsNatDecimal (s : GoString) (n : Nat) : Prop :=
  s ≠ [] ∧ (∀ b ∈ s, 48 ≤ b.toNat ∧ b.toNat ≤ 57) ∧ (s.head? = some 48 → s = [48]) ∧
    decimalValue s = n

/-- The string `s` is the base-10 rendering of the integer `n`: a minus sign
in front of the rendering of `-n` when `n` is negative. -/
def IsDecimal (s : GoString) (n : Int) : Prop :=
  if n < 0 then ∃ ds, s = 45 :: ds ∧ IsNatDecimal ds n.natAbs else IsNatDecimal s n.natAbs

/-- The value of an `int64` key fits the `int` of the target. -/
def Key.FitsInt (arch : Arch) : Key → Prop
  | .int64 v => -(2 ^ (arch.intSize - 1) : Int) ≤ v ∧ v < 2 ^ (arch.intSize - 1)
  | _ => True

/-! ## sync.Map (standard library) -/

/-- Sequential content of a `sync.Map`: its entries, in no meaningful order. -/
structure SyncMap (V : Type) where
  entries : List (Key × V)
deriving DecidableEq, Repr

namespace SyncMap

variable {V : Type}

/-- Zero value `sync.Map{}`: empty and ready for use. -/
def empty : SyncMap V := ⟨[]⟩

/-- Keys held by the map. -/
def keys (m : SyncMap V) : List Key := m.entries.map Prod.fst

/-- Go `m.Load(key)`: `some v` stands for `(v, true)`, `none` for `(nil, false)`. -/
def Load (m : SyncMap V) (key : Key) : Option V :=
  (m.entries.find? (fun e => decide (e.1 = key))).map Prod.snd

/-- Go `m.Delete(key)`. -/
def Delete (m : SyncMap V) (key : Key) : SyncMap V :=
  ⟨m.entries.filter (fun e => decide (e.1 ≠ key))⟩

/-- Go `m.Store(key, value)`. -/
def Store (m : SyncMap V) (key : Key) (value : V) : SyncMap V :=
  ⟨(key, value) :: (m.Delete key).entries⟩

end SyncMap

/-! ## ShardMap -/

/-- The struct `ShardMap`: a slice of pointers to `sync.Map`; `none` is the
nil pointer. -/
structure ShardMap (V : Type) where
  shards : List (Option (SyncMap V))
deriving DecidableEq, Repr

namespace ShardMap

variable {V : Type}

/-- Go `New()`. -/
def New : ShardMap V :=
  (List.range ShardCount).foldl
    (fun s i => { shards := s.shards.set i (some SyncMap.empty) })
    { shards := List.replicate ShardCount none }

/-- Go `s.getShard(key)`: the index of the shard and the pointer found there. -/
def getShard (arch : Arch) (s : ShardMap V) (key : Key) :
    Except Fault (Nat × Option (SyncMap V)) := do
  let index ← shardIndex arch key
  match s.shards[index]? with
  | some shard => pure (index, shard)
  | none => throw Fault.indexOutOfRange

/-- Go `s.Load(key)`: `some v` stands for `(v, true)`, `none` for `(nil, false)`. -/
def Load (arch : Arch) (s : ShardMap V) (key : Key) : Except Fault (Option V) := do
  let (_, shard) ← s.getShard arch key
  match shard with
  | some c => pure (c.Load key)
  | none => throw Fault.nilPointer

/-- Go `s.Store(key, value)`. -/
def Store (arch : Arch) (s : ShardMap V) (key : Key) (value : V) :
    Except Fault (ShardMap V) := do
  let (index, shard) ← s.getShard arch key
  match shard with
  | some c => pure { shards := s.shards.set index (some (c.Store key value)) }
  | none => throw Fault.nilPointer

/-- Go `s.Delete(key)`. -/
def Delete (arch : Arch) (s : ShardMap V) (key : Key) : Except Fault (ShardMap V) := do
  let (index, shard) ← s.getShard arch key
  match shard with
  | some c => pure { shards := s.shards.set index (some (c.Delete key)) }
  | none => throw Fault.nilPointer

/-- A visitor: it is given an entry and may change the map and its own state. -/
abbrev Visitor (V σ : Type) := Key → V → ShardMap V × σ → Except Fault (ShardMap V × σ)

/-- The body of `c.Range(f)` for the shard at `index`, over the keys the
traversal started with: a key that is still present is passed to `f` with its
current value, a key deleted meanwhile is skipped. -/
def visitKeys {σ : Type} (index : Nat) (f : Visitor V σ) :
    List Key → ShardMap V × σ → Except Fault (ShardMap V × σ)
  | [], w => pure w
  | key :: rest, w =>
    match w.1.shards[index]? with
    | some (some c) =>
      match c.Load key with
      | some value => do
        let w1 ← f key value w
        visitKeys index f rest w1
      | none => visitKeys index f rest w
    | _ => throw Fault.nilPointer

/-- Go `c.Range(f)` for the shard `c` at `index`. -/
def rangeShard {σ : Type} (index : Nat) (f : Visitor V σ) (w : ShardMap V × σ) :
    Except Fault (ShardMap V × σ) :=
  match w.1.shards[index]? with
  | some (some c) => visitKeys index f c.keys w
  | some none => throw Fault.nilPointer
  | none => throw Fault.indexOutOfRange

/-- The loop `for index, shard := range s.shards { go ... }` followed by
`wg.Wait()`: one task for each index, `task index` being the goroutine body. -/
def fanOut {W : Type} (task : Nat → W → Except Fault W) : List Nat → W → Except Fault W
  | [], w => pure w
  | index :: rest, w => do
    let w1 ← task index w
    fanOut task rest w1

/-- Go `s.Len()`: the visitor adds one to the `uint32` counter. -/
def Len (s : ShardMap V) : Except Fault Nat := do
  let w ← fanOut
    (fun index => rangeShard index (fun _ _ w => pure (w.1, (w.2 + 1) % 2 ^ 32)))
    (List.range s.shards.length) (s, 0)
  pure w.2

/-- Go `s.Range(fn)`; `st` is the state of the visitor before the call. -/
def Range {σ : Type} (s : ShardMap V) (fn : Visitor V σ) (st : σ) :
    Except Fault (ShardMap V × σ) :=
  fanOut (fun index => rangeShard index fn) (List.range s.shards.length) (s, st)

/-- The call `c.Delete(key)` in the visitor of `Clear`, `c` being the shard at `index`. -/
def deleteIn (index : Nat) (key : Key) (s : ShardMap V) : Except Fault (ShardMap V) :=
  match s.shards[index]? with
  | some (some c) => pure { shards := s.shards.set index (some (c.Delete key)) }
  | _ => throw Fault.nilPointer

/-- Go `s.Clear()`. -/
def Clear (s : ShardMap V) : Except Fault (ShardMap V) := do
  let w ← fanOut
    (fun index => rangeShard index (fun key _ w => do
      let s1 ← deleteIn index key w.1
      pure (s1, w.2)))
    (List.range s.shards.length) (s, ())
  pure w.1

/-- The visitor of `TestRange`: it deletes `k1` from the map when it is given `k1`. -/
def deleteVisitor (arch : Arch) (k1 : Key) : Visitor V Unit :=
  fun key _ w => if key = k1 then do
    let s1 ← w.1.Delete arch key
    pure (s1, w.2)
  else pure w

/-- States of the map that a sequential client can produce. -/
inductive Reachable (arch : Arch) : ShardMap V → Prop where
  | new : Reachable arch New
  | store {s s1 : ShardMap V} (key : Key) (value : V) :
      Reachable arch s → s.Store arch key value = .ok s1 → Reachable arch s1
  | delete {s s1 : ShardMap V} (key : Key) :
      Reachable arch s → s.Delete arch key = .ok s1 → Reachable arch s1
  | clear {s s1 : ShardMap V} :
      Reachable arch s → s.Clear = .ok s1 → Reachable arch s1

/-- Keys behind a shard pointer. -/
def shardKeys : Option (SyncMap V) → List Key
  | some c => c.keys
  | none => []

/-- All keys of the map, shard after shard. -/
def keys (s : ShardMap V) : List Key := s.shards.flatMap shardKeys

/-- Invariant of the map: `ShardCount` shards, none of them nil, no key twice
in a shard, and every key in the shard that `getShard` selects for it. -/
def WF (arch : Arch) (s : ShardMap V) : Prop :=
  s.shards.length = ShardCount ∧
  ∀ i, i < ShardCount → ∃ c, s.shards[i]? = some (some c) ∧ c.keys.Nodup ∧
    ∀ k ∈ c.keys, shardIndex arch k = .ok i

/-- Number of entries of the shard at `index`. -/
def shardSize (s : ShardMap V) (index : Nat) : Nat :=
  match s.shards[index]? with
  | some (some c) => c.keys.length
  | _ => 0

/-- Storing the pairs of a list one after the other. -/
def storeAll (arch : Arch) : List (Key × V) → ShardMap V → Except Fault (ShardMap V)
  | [], s => pure s
  | e :: rest, s => do
    let s1 ← s.Store arch e.1 e.2
    storeAll arch rest s1

/-- The map returned by a call that did not panic, a new map otherwise. -/
def orNew (r : Except Fault (ShardMap V)) : ShardMap V :=
  match r with
  | .ok s => s
  | .error _ => New

/-- The pairs stored by the tests. -/
def testPairs : List (Key × String) :=
  [(.string (utf8 "key1"), "value1"), (.string (utf8 "key2"), "value2")]

/-- The map of the tests: "key1" and "key2" stored in a new map. -/
def twoKeys : ShardMap String := orNew (storeAll .bits64 testPairs New)

/-- The keys `uint64(0)`, ..., `uint64(2^32 - 1)`, each with the empty value. -/
def manyKeys : List (Key × Unit) := (List.range (2 ^ 32)).map (fun n => (Key.uint64 n, ()))

/-- A map holding `2^32` keys. -/
def manyKeysMap : ShardMap Unit := orNew (storeAll .bits64 manyKeys New)

/-- No shard pointer of the map is nil. -/
def NonNil (s : ShardMap V) : Prop :=
  ∀ i, i < s.shards.length → ∃ c, s.shards[i]? = some (some c)

/-- Entries behind a shard pointer. -/
def shardEntries : Option (SyncMap V) → List (Key × V)
  | some c => c.entries
  | none => []

/-- All entries of the map, shard after shard. -/
def entries (s : ShardMap V) : List (Key × V) := s.shards.flatMap shardEntries

/-- A visitor that does not touch the map: `g` updates the state of the visitor. -/
def readOnlyVisitor {σ : Type} (g : Key → V → σ → σ) : Visitor V σ :=
  fun key value w => pure (w.1, g key value w.2)

/-- The visitor that appends the entry it is given to a log of its calls. -/
def logVisitor : Visitor V (List (Key × V)) :=
  readOnlyVisitor (fun key value log => log ++ [(key, value)])

/-- A call of a mutating operation of the map. -/
inductive Op (V : Type) where
  | store (key : Key) (value : V)
  | delete (key : Key)
  | clear

/-- Execution of one call. -/
def Op.run (arch : Arch) : Op V → ShardMap V → Except Fault (ShardMap V)
  | .store key value, s => s.Store arch key value
  | .delete key, s => s.Delete arch key
  | .clear, s => s.Clear

/-- Execution of a sequence of calls. -/
def runOps (arch : Arch) : List (Op V) → ShardMap V → Except Fault (ShardMap V)
  | [], s => pure s
  | op :: rest, s => do
    let s1 ← op.run arch s
    runOps arch rest s1

/-- A visitor that acts on the map through its operations only: `prog` chooses
the calls from the entry it is given and from what it can read in the map. -/
def opVisitor (arch : Arch) (prog : Key → V → ShardMap V → List (Op V)) : Visitor V Unit :=
  fun key value w => do
    let s1 ← runOps arch (prog key value w.1) w.1
    pure (s1, w.2)

/-- States of the map reachable from `New()` by `Store`, `Delete`, `Clear` and by
`Range` with a visitor that acts on the map through its operations. -/
inductive ReachableR (arch : Arch) : ShardMap V → Prop where
  | new : ReachableR arch New
  | store {s s1 : ShardMap V} (key : Key) (value : V) :
      ReachableR arch s → s.Store arch key value = .ok s1 → ReachableR arch s1
  | delete {s s1 : ShardMap V} (key : Key) :
      ReachableR arch s → s.Delete arch key = .ok s1 → ReachableR arch s1
  | clear {s s1 : ShardMap V} :
      ReachableR arch s → s.Clear = .ok s1 → ReachableR arch s1
  | range {s s1 : ShardMap V} (prog : Key → V → ShardMap V → List (Op V)) :
      ReachableR arch s → s.Range (opVisitor arch prog) () = .ok (s1, ()) → ReachableR arch s1

/-- The map holding `2^32` keys after `Delete(uint64(0))`. -/
def almostFullMap : ShardMap Unit := orNew (manyKeysMap.Delete .bits64 (.uint64 0))

/-- Size of the sample of keys. -/
def sampleCount : Nat := 10000

/-- The `int` keys 0, ..., 9999, each with the empty value. -/
def sampleInts : List (Key × Unit) :=
  (List.range sampleCount).map (fun n : Nat => (Key.int (n : Int), ()))

/-- For each shard index, an integer below 10000 that `getShard` sends there. -/
def sampleKeys : List Nat :=
  [27, 26, 25, 24, 23, 22, 9, 8, 7, 6, 5, 4, 3, 2, 1, 0,
   34, 35, 18, 19, 30, 31, 32, 33, 12, 13, 10, 11, 16, 17, 14, 15]

end ShardMap

/-- Standard 32-bit FNV-1a: start from the offset basis 2166136261 and, for each
byte, first XOR the byte into the hash, then multiply by the prime 16777619
modulo `2^32`. -/
def fnv1aStandard (s : GoString) : Nat :=
  s.foldl (fun hash b => ((hash ^^^ b.toNat) * 16777619) % 2 ^ 32) 2166136261

end Shardmap

/-! # Theorems -/

namespace Shardmap
open ShardMap
variable {V : Type}

/-! ## The hash and the shard index -/

theorem toUint_ShardCount (arch : Arch) : toUint arch ShardCount = 32 := by
  cases arch <;> rfl

theorem strKey_ok_of_supported (arch : Arch) (k : Key) (hk : k.Supported) :
    ∃ s, strKey arch k = .ok s := by
  cases k <;> first | exact ⟨_, rfl⟩ | exact absurd hk (by simp [Key.Supported])

theorem strKey_other (arch : Arch) (tag : Nat) :
    strKey arch (.other tag) = .error Fault.unsupportedKeyType := rfl

theorem shardIndex_of_strKey (arch : Arch) (k : Key) (str : GoString)
    (h : strKey arch k = .ok str) :
    shardIndex arch k = .ok (toUint arch (hashString str) % 32) := by
  simp only [shardIndex, fnv1a32, h, toUint_ShardCount]
  rfl

theorem shardIndex_ok_of_supported (arch : Arch) (k : Key) (hk : k.Supported) :
    ∃ i, shardIndex arch k = .ok i ∧ i < ShardCount := by
  obtain ⟨str, h⟩ := strKey_ok_of_supported arch k hk
  exact ⟨_, shardIndex_of_strKey arch k str h, Nat.mod_lt _ (by decide)⟩

theorem shardIndex_other (arch : Arch) (tag : Nat) :
    shardIndex arch (.other tag) = .error Fault.unsupportedKeyType := rfl

theorem supported_of_shardIndex (arch : Arch) (k : Key) (i : Nat)
    (h : shardIndex arch k = .ok i) : k.Supported := by
  cases k with
  | other tag => rw [shardIndex_other] at h; cases h
  | _ => all_goals simp [Key.Supported]

theorem shardIndex_lt (arch : Arch) (k : Key) (i : Nat) (h : shardIndex arch k = .ok i) :
    i < ShardCount := by
  obtain ⟨j, hj, hlt⟩ := shardIndex_ok_of_supported arch k (supported_of_shardIndex arch k i h)
  rw [hj] at h
  cases h
  exact hlt

/-! ## sync.Map -/

namespace SyncMap

theorem Load_eq_none_iff (m : SyncMap V) (k : Key) : m.Load k = none ↔ k ∉ m.keys := by
  simp only [Load, keys, Option.map_eq_none', List.find?_eq_none, List.mem_map, not_exists,
    decide_eq_true_eq, not_and]

theorem Load_isSome_iff (m : SyncMap V) (k : Key) : (∃ v, m.Load k = some v) ↔ k ∈ m.keys := by
  rw [← not_iff_not, ← Load_eq_none_iff]
  cases m.Load k <;> simp

theorem entry_Load_Store_same (m : SyncMap V) (k : Key) (v : V) : (m.Store k v).Load k = some v := by
  simp [Load, Store]

theorem entry_Load_Delete_same (m : SyncMap V) (k : Key) : (m.Delete k).Load k = none := by
  rw [Load_eq_none_iff]
  simp [keys, Delete]

theorem find?_filter_of_imp {α : Type} (p q : α → Bool) (h : ∀ a, q a = true → p a = true) :
    ∀ l : List α, (l.filter p).find? q = l.find? q
  | [] => rfl
  | a :: l => by
    have ih := find?_filter_of_imp p q h l
    cases hq : q a with
    | true =>
      rw [List.filter_cons_of_pos (h a hq), List.find?_cons_of_pos _ hq,
        List.find?_cons_of_pos _ hq]
    | false =>
      have hq2 : ¬ (q a = true) := by simp [hq]
      rw [List.find?_cons_of_neg _ hq2]
      cases hp : p a with
      | true =>
        rw [List.filter_cons_of_pos hp, List.find?_cons_of_neg _ hq2, ih]
      | false =>
        rw [List.filter_cons_of_neg (by simp [hp]), ih]

theorem entry_Load_Delete_other (m : SyncMap V) (k k2 : Key) (h : k2 ≠ k) :
    (m.Delete k).Load k2 = m.Load k2 := by
  simp only [Load, Delete]
  rw [find?_filter_of_imp]
  intro e he
  simp only [decide_eq_true_eq] at he
  simp only [ne_eq, decide_not, Bool.not_eq_true', decide_eq_false_iff_not]
  exact fun h2 => h (he.symm.trans h2)

theorem entry_Load_Store_other (m : SyncMap V) (k k2 : Key) (v : V) (h : k2 ≠ k) :
    (m.Store k v).Load k2 = m.Load k2 := by
  have : (m.Store k v).Load k2 = (m.Delete k).Load k2 := by
    simp [Load, Store, List.find?_cons, Ne.symm h]
  rw [this, entry_Load_Delete_other m k k2 h]

theorem keys_Delete (m : SyncMap V) (k : Key) :
    (m.Delete k).keys = m.keys.filter (fun x => decide (x ≠ k)) := by
  simp only [keys, Delete, List.filter_map]
  rfl

theorem keys_Store (m : SyncMap V) (k : Key) (v : V) :
    (m.Store k v).keys = k :: (m.Delete k).keys := rfl

theorem entry_mem_keys_Delete (m : SyncMap V) (k k2 : Key) :
    k2 ∈ (m.Delete k).keys ↔ k2 ∈ m.keys ∧ k2 ≠ k := by
  simp [keys_Delete]

theorem nodup_keys_Delete (m : SyncMap V) (k : Key) (h : m.keys.Nodup) :
    (m.Delete k).keys.Nodup := by
  rw [keys_Delete]; exact h.filter _

theorem nodup_keys_Store (m : SyncMap V) (k : Key) (v : V) (h : m.keys.Nodup) :
    (m.Store k v).keys.Nodup := by
  rw [keys_Store, List.nodup_cons]
  refine ⟨?_, nodup_keys_Delete m k h⟩
  simp [entry_mem_keys_Delete]

theorem entry_Delete_of_not_mem (m : SyncMap V) (k : Key) (h : k ∉ m.keys) : m.Delete k = m := by
  cases m with
  | mk es =>
    simp only [Delete, SyncMap.mk.injEq, List.filter_eq_self, decide_eq_true_eq]
    intro e he hk
    exact h (by simp only [keys, List.mem_map]; exact ⟨e, he, hk⟩)

theorem entry_length_keys_Delete_of_mem (m : SyncMap V) (k : Key) (hn : m.keys.Nodup)
    (h : k ∈ m.keys) : (m.Delete k).keys.length + 1 = m.keys.length := by
  rw [keys_Delete]
  have h1 := List.length_eq_length_filter_add (l := m.keys) (fun x => decide (x ≠ k))
  have h2 : (m.keys.filter (fun x => !decide (x ≠ k))).length = 1 := by
    have : (m.keys.filter (fun x => !decide (x ≠ k))) = m.keys.filter (fun x => x == k) := by
      apply List.filter_congr; intro x _; by_cases hx : x = k <;> simp [hx]
    rw [this, ← List.countP_eq_length_filter]
    exact List.count_eq_one_of_mem hn h
  omega

end SyncMap

end Shardmap

namespace Shardmap

namespace ShardMap

variable {V : Type}

/-! ## Single-key operations -/

theorem New_eq : (New : ShardMap V) = ⟨List.replicate ShardCount (some SyncMap.empty)⟩ := by
  simp [New, ShardCount, List.range_succ, List.replicate]

theorem getShard_eq (arch : Arch) (s : ShardMap V) (k : Key) (i : Nat) (p : Option (SyncMap V))
    (hi : shardIndex arch k = .ok i) (hc : s.shards[i]? = some p) :
    s.getShard arch k = .ok (i, p) := by
  simp only [getShard, hi, bind, Except.bind, hc]
  rfl

theorem Load_eq (arch : Arch) (s : ShardMap V) (k : Key) (i : Nat) (c : SyncMap V)
    (hi : shardIndex arch k = .ok i) (hc : s.shards[i]? = some (some c)) :
    s.Load arch k = .ok (c.Load k) := by
  simp only [Load, getShard_eq arch s k i _ hi hc, bind, Except.bind]
  rfl

theorem Store_eq (arch : Arch) (s : ShardMap V) (k : Key) (v : V) (i : Nat) (c : SyncMap V)
    (hi : shardIndex arch k = .ok i) (hc : s.shards[i]? = some (some c)) :
    s.Store arch k v = .ok ⟨s.shards.set i (some (c.Store k v))⟩ := by
  simp only [Store, getShard_eq arch s k i _ hi hc, bind, Except.bind]
  rfl

theorem Delete_eq (arch : Arch) (s : ShardMap V) (k : Key) (i : Nat) (c : SyncMap V)
    (hi : shardIndex arch k = .ok i) (hc : s.shards[i]? = some (some c)) :
    s.Delete arch k = .ok ⟨s.shards.set i (some (c.Delete k))⟩ := by
  simp only [Delete, getShard_eq arch s k i _ hi hc, bind, Except.bind]
  rfl

theorem getShard_unsupported (arch : Arch) (s : ShardMap V) (k : Key) (hk : ¬ k.Supported) :
    s.getShard arch k = .error Fault.unsupportedKeyType := by
  cases k with
  | other tag => rfl
  | _ => all_goals exact absurd (by simp [Key.Supported]) hk

theorem Load_unsupported (arch : Arch) (s : ShardMap V) (k : Key) (hk : ¬ k.Supported) :
    s.Load arch k = .error Fault.unsupportedKeyType := by
  simp only [Load, getShard_unsupported arch s k hk, bind, Except.bind]

theorem Store_unsupported (arch : Arch) (s : ShardMap V) (k : Key) (v : V)
    (hk : ¬ k.Supported) : s.Store arch k v = .error Fault.unsupportedKeyType := by
  simp only [Store, getShard_unsupported arch s k hk, bind, Except.bind]

theorem Delete_unsupported (arch : Arch) (s : ShardMap V) (k : Key) (hk : ¬ k.Supported) :
    s.Delete arch k = .error Fault.unsupportedKeyType := by
  simp only [Delete, getShard_unsupported arch s k hk, bind, Except.bind]

/-! ## The invariant -/

theorem WF_New (arch : Arch) : WF arch (New : ShardMap V) := by
  rw [New_eq]
  refine ⟨by simp, ?_⟩
  intro i hi
  refine ⟨SyncMap.empty, ?_, ?_, ?_⟩
  · simp [List.getElem?_replicate, hi]
  · simp [SyncMap.empty, SyncMap.keys]
  · simp [SyncMap.empty, SyncMap.keys]

theorem WF_set (arch : Arch) (s : ShardMap V) (i : Nat) (c : SyncMap V) (hs : WF arch s)
    (hn : c.keys.Nodup) (hk : ∀ k ∈ c.keys, shardIndex arch k = .ok i) :
    WF arch ⟨s.shards.set i (some c)⟩ := by
  refine ⟨by simpa using hs.1, ?_⟩
  intro j hj
  by_cases hij : i = j
  · subst hij
    refine ⟨c, ?_, hn, hk⟩
    simp [List.getElem?_set, hs.1, hj]
  · obtain ⟨d, hd, hdn, hdk⟩ := hs.2 j hj
    exact ⟨d, by simp [List.getElem?_set, hij, hd], hdn, hdk⟩

theorem WF_lookup (arch : Arch) (s : ShardMap V) (hs : WF arch s) (k : Key)
    (hk : k.Supported) :
    ∃ i c, shardIndex arch k = .ok i ∧ i < ShardCount ∧ s.shards[i]? = some (some c) ∧
      c.keys.Nodup ∧ ∀ k2 ∈ c.keys, shardIndex arch k2 = .ok i := by
  obtain ⟨i, hi, hlt⟩ := shardIndex_ok_of_supported arch k hk
  obtain ⟨c, hc, hn, hkk⟩ := hs.2 i hlt
  exact ⟨i, c, hi, hlt, hc, hn, hkk⟩

theorem WF_Store (arch : Arch) (s s1 : ShardMap V) (k : Key) (v : V) (hs : WF arch s)
    (h : s.Store arch k v = .ok s1) : WF arch s1 := by
  by_cases hk : k.Supported
  · obtain ⟨i, c, hi, _, hc, hn, hkk⟩ := WF_lookup arch s hs k hk
    rw [Store_eq arch s k v i c hi hc] at h
    cases h
    refine WF_set arch s i _ hs (SyncMap.nodup_keys_Store c k v hn) ?_
    intro k2 hk2
    rw [SyncMap.keys_Store, List.mem_cons, SyncMap.entry_mem_keys_Delete] at hk2
    rcases hk2 with rfl | ⟨h2, _⟩
    · exact hi
    · exact hkk k2 h2
  · rw [Store_unsupported arch s k v hk] at h; cases h

theorem WF_Delete (arch : Arch) (s s1 : ShardMap V) (k : Key) (hs : WF arch s)
    (h : s.Delete arch k = .ok s1) : WF arch s1 := by
  by_cases hk : k.Supported
  · obtain ⟨i, c, hi, _, hc, hn, hkk⟩ := WF_lookup arch s hs k hk
    rw [Delete_eq arch s k i c hi hc] at h
    cases h
    refine WF_set arch s i _ hs (SyncMap.nodup_keys_Delete c k hn) ?_
    intro k2 hk2
    rw [SyncMap.entry_mem_keys_Delete] at hk2
    exact hkk k2 hk2.1
  · rw [Delete_unsupported arch s k hk] at h; cases h

end ShardMap

end Shardmap

namespace Shardmap

namespace ShardMap

variable {V : Type}

/-! ## Len -/

theorem WF_NonNil (arch : Arch) (s : ShardMap V) (hs : WF arch s) : NonNil s := by
  intro i hi
  rw [hs.1] at hi
  obtain ⟨c, hc, _⟩ := hs.2 i hi
  exact ⟨c, hc⟩

theorem visitKeys_count (s : ShardMap V) (i : Nat) (c : SyncMap V)
    (hc : s.shards[i]? = some (some c)) :
    ∀ (ks : List Key) (n : Nat), (∀ k ∈ ks, k ∈ c.keys) →
      visitKeys i (fun _ _ w => pure (w.1, (w.2 + 1) % 2 ^ 32)) ks (s, n)
        = .ok (s, if ks = [] then n else (n + ks.length) % 2 ^ 32)
  | [], n, _ => rfl
  | k :: ks, n, h => by
    obtain ⟨v, hv⟩ := (SyncMap.Load_isSome_iff c k).2 (h k (List.mem_cons_self _ _))
    have ih := visitKeys_count s i c hc ks ((n + 1) % 2 ^ 32)
      (fun k2 h2 => h k2 (List.mem_cons_of_mem _ h2))
    simp only [visitKeys, hc, hv]
    refine ih.trans ?_
    congr 2
    by_cases hks : ks = []
    · simp [hks]
    · simp only [hks, if_false, List.length_cons, reduceCtorEq]
      omega

theorem rangeShard_count (s : ShardMap V) (i : Nat) (c : SyncMap V) (n : Nat)
    (hc : s.shards[i]? = some (some c)) (hn : n < 2 ^ 32) :
    rangeShard i (fun _ _ w => pure (w.1, (w.2 + 1) % 2 ^ 32)) (s, n)
      = .ok (s, (n + shardSize s i) % 2 ^ 32) := by
  simp only [rangeShard, hc, shardSize]
  rw [visitKeys_count s i c hc c.keys n (fun _ h => h)]
  congr 2
  by_cases hks : c.keys = []
  · simp only [hks, if_true, List.length_nil, Nat.add_zero]
    exact (Nat.mod_eq_of_lt hn).symm
  · simp [hks]

theorem fanOut_count (s : ShardMap V) (hs : NonNil s) :
    ∀ (l : List Nat) (n : Nat), (∀ i ∈ l, i < s.shards.length) → n < 2 ^ 32 →
      fanOut (fun index => rangeShard index (fun _ _ w => pure (w.1, (w.2 + 1) % 2 ^ 32)))
        l (s, n) = .ok (s, (n + (l.map (shardSize s)).sum) % 2 ^ 32)
  | [], n, _, hn => by
    simp only [fanOut, pure, Except.pure, List.map_nil, List.sum_nil, Nat.add_zero]
    rw [Nat.mod_eq_of_lt hn]
  | i :: l, n, h, hn => by
    obtain ⟨c, hc⟩ := hs i (h i (List.mem_cons_self _ _))
    have ih := fanOut_count s hs l ((n + shardSize s i) % 2 ^ 32)
      (fun j hj => h j (List.mem_cons_of_mem _ hj)) (Nat.mod_lt _ (by norm_num))
    simp only [fanOut, bind, Except.bind, rangeShard_count s i c n hc hn]
    rw [ih]
    congr 2
    simp only [List.map_cons, List.sum_cons]
    omega

theorem sum_shardSize (s : ShardMap V) :
    ((List.range s.shards.length).map (shardSize s)).sum = s.keys.length := by
  have h : (List.range s.shards.length).map (shardSize s)
      = s.shards.map (List.length ∘ shardKeys) := by
    apply List.ext_getElem
    · simp
    · intro j h1 h2
      simp only [List.length_map, List.length_range] at h1
      simp only [List.getElem_map, List.getElem_range, shardSize, List.getElem?_eq_getElem h1,
        Function.comp]
      cases s.shards[j] <;> rfl
  rw [h, keys, List.length_flatMap]

theorem Len_eq (s : ShardMap V) (hs : NonNil s) : s.Len = .ok (s.keys.length % 2 ^ 32) := by
  simp only [Len, bind, Except.bind]
  rw [fanOut_count s hs _ 0 (fun i hi => List.mem_range.1 hi) (by norm_num)]
  simp only [sum_shardSize, Nat.zero_add]
  rfl

end ShardMap

end Shardmap

namespace Shardmap

namespace ShardMap

variable {V : Type}

/-! ## Clear -/

theorem set_of_getElem? {α : Type} (l : List α) (i : Nat) (a : α) (h : l[i]? = some a) :
    l.set i a = l := by
  apply List.ext_getElem?
  intro j
  by_cases hij : i = j
  · subst hij
    rw [List.getElem?_set, h]
    have : i < l.length := by
      by_contra hlt
      rw [List.getElem?_eq_none (by omega)] at h
      cases h
    simp [this]
  · simp [List.getElem?_set, hij]

theorem visitKeys_clear (i : Nat) :
    ∀ (ks : List Key) (s : ShardMap V) (c : SyncMap V), s.shards[i]? = some (some c) →
      visitKeys i (fun key _ w => do
          let s1 ← deleteIn i key w.1
          pure (s1, w.2)) ks (s, ())
        = .ok (⟨s.shards.set i (some ⟨c.entries.filter (fun e => decide (e.1 ∉ ks))⟩)⟩, ())
  | [], s, c, hc => by
    simp only [visitKeys, List.not_mem_nil, not_false_eq_true, decide_True, List.filter_true]
    rw [set_of_getElem? _ _ _ hc]
    rfl
  | k :: ks, s, c, hc => by
    have hlt : i < s.shards.length := by
      by_contra hlt
      rw [List.getElem?_eq_none (by omega)] at hc
      cases hc
    have hfilter : ∀ es : List (Key × V),
        (es.filter (fun e => decide (e.1 ≠ k))).filter (fun e => decide (e.1 ∉ ks))
          = es.filter (fun e => decide (e.1 ∉ k :: ks)) := by
      intro es
      rw [List.filter_filter]
      apply List.filter_congr
      intro e _
      by_cases h1 : e.1 = k <;> by_cases h2 : e.1 ∈ ks <;> simp [h1, h2]
    cases hv : c.Load k with
    | none =>
      have hk : k ∉ c.keys := (SyncMap.Load_eq_none_iff c k).1 hv
      have ih := visitKeys_clear i ks s c hc
      simp only [visitKeys, hc, hv]
      refine ih.trans ?_
      have : c.entries.filter (fun e => decide (e.1 ∉ ks))
          = c.entries.filter (fun e => decide (e.1 ∉ k :: ks)) := by
        rw [← hfilter]
        congr 1
        have := SyncMap.entry_Delete_of_not_mem c k hk
        simp only [SyncMap.Delete] at this
        exact (congrArg SyncMap.entries this).symm
      rw [this]
    | some v =>
      have hc1 : (s.shards.set i (some (c.Delete k)))[i]? = some (some (c.Delete k)) := by
        simp [List.getElem?_set, hlt]
      have ih := visitKeys_clear i ks ⟨s.shards.set i (some (c.Delete k))⟩ (c.Delete k) hc1
      simp only [visitKeys, hc, hv, deleteIn, bind, Except.bind, pure, Except.pure]
      refine ih.trans ?_
      simp only [List.set_set, SyncMap.Delete, hfilter]

theorem rangeShard_clear (i : Nat) (s : ShardMap V) (c : SyncMap V)
    (hc : s.shards[i]? = some (some c)) :
    rangeShard i (fun key _ w => do
        let s1 ← deleteIn i key w.1
        pure (s1, w.2)) (s, ())
      = .ok (⟨s.shards.set i (some SyncMap.empty)⟩, ()) := by
  simp only [rangeShard, hc]
  rw [visitKeys_clear i c.keys s c hc]
  congr 5
  simp only [SyncMap.empty, SyncMap.mk.injEq, List.filter_eq_nil_iff, decide_eq_true_eq,
    not_not]
  intro e he
  simp only [SyncMap.keys, List.mem_map]
  exact ⟨e, he, rfl⟩

theorem NonNil_set (s : ShardMap V) (i : Nat) (c : SyncMap V) (hs : NonNil s) :
    NonNil ⟨s.shards.set i (some c)⟩ := by
  intro j hj
  simp only [List.length_set] at hj
  by_cases hij : i = j
  · subst hij
    exact ⟨c, by simp [List.getElem?_set, hj]⟩
  · obtain ⟨d, hd⟩ := hs j hj
    exact ⟨d, by simp [List.getElem?_set, hij, hd]⟩

theorem fanOut_clear :
    ∀ (l : List Nat) (s : ShardMap V), NonNil s → (∀ i ∈ l, i < s.shards.length) →
      ∃ s1 : ShardMap V,
        fanOut (fun index => rangeShard index (fun key _ w => do
            let s1 ← deleteIn index key w.1
            pure (s1, w.2))) l (s, ()) = .ok (s1, ()) ∧
        s1.shards.length = s.shards.length ∧
        ∀ j, s1.shards[j]? = if j ∈ l then some (some SyncMap.empty) else s.shards[j]?
  | [], s, _, _ => ⟨s, rfl, rfl, fun j => by simp⟩
  | i :: l, s, hs, h => by
    obtain ⟨c, hc⟩ := hs i (h i (List.mem_cons_self _ _))
    obtain ⟨s1, h1, h2, h3⟩ := fanOut_clear l ⟨s.shards.set i (some SyncMap.empty)⟩
      (NonNil_set s i _ hs)
      (fun j hj => by simpa using h j (List.mem_cons_of_mem _ hj))
    refine ⟨s1, ?_, by simpa using h2, ?_⟩
    · simp only [fanOut]
      rw [rangeShard_clear i s c hc]
      exact h1
    · intro j
      rw [h3 j]
      have hi := h i (List.mem_cons_self _ _)
      by_cases hjl : j ∈ l
      · simp [hjl]
      · by_cases hij : i = j
        · subst hij
          simp [hjl, List.getElem?_set, hi]
        · have : j ≠ i := fun h => hij h.symm
          simp [hjl, List.getElem?_set, hij, this]

theorem Clear_eq (s : ShardMap V) (hs : NonNil s) :
    s.Clear = .ok ⟨List.replicate s.shards.length (some SyncMap.empty)⟩ := by
  obtain ⟨s1, h1, h2, h3⟩ := fanOut_clear (List.range s.shards.length) s hs
    (fun i hi => List.mem_range.1 hi)
  simp only [Clear]
  rw [h1]
  show Except.ok s1 = _
  congr 1
  cases s1 with
  | mk l1 =>
    congr 1
    apply List.ext_getElem?
    intro j
    simp only at h2 h3
    rw [h3 j]
    by_cases hj : j < s.shards.length
    · simp [hj, List.getElem?_replicate]
    · simp [hj, List.getElem?_replicate]
      omega

theorem Clear_eq_New (arch : Arch) (s : ShardMap V) (hs : WF arch s) : s.Clear = .ok New := by
  rw [Clear_eq s (WF_NonNil arch s hs), hs.1, New_eq]

end ShardMap

end Shardmap

namespace Shardmap

namespace ShardMap

variable {V : Type}

/-! ## Reachable states and the keys of the map -/

theorem Reachable_WF (arch : Arch) (s : ShardMap V) (h : Reachable arch s) : WF arch s := by
  induction h with
  | new => exact WF_New arch
  | store key value _ hst ih => exact WF_Store arch _ _ key value ih hst
  | delete key _ hd ih => exact WF_Delete arch _ _ key ih hd
  | clear _ hc ih =>
    rw [Clear_eq_New arch _ ih] at hc
    rw [← Except.ok.inj hc]
    exact WF_New arch

theorem mem_keys_iff (s : ShardMap V) (k : Key) :
    k ∈ s.keys ↔ ∃ (j : Nat) (c : SyncMap V), s.shards[j]? = some (some c) ∧ k ∈ c.keys := by
  rw [keys, List.mem_flatMap]
  constructor
  · rintro ⟨p, hp, hk⟩
    obtain ⟨j, hj⟩ := List.getElem?_of_mem hp
    cases p with
    | none => simp [shardKeys] at hk
    | some c => exact ⟨j, c, hj, hk⟩
  · rintro ⟨j, c, hj, hk⟩
    exact ⟨some c, List.getElem?_mem hj, hk⟩

theorem WF_mem_keys_iff (arch : Arch) (s : ShardMap V) (hs : WF arch s) (k : Key) (i : Nat)
    (c : SyncMap V) (hi : shardIndex arch k = .ok i) (hc : s.shards[i]? = some (some c)) :
    k ∈ s.keys ↔ k ∈ c.keys := by
  rw [mem_keys_iff]
  constructor
  · rintro ⟨j, d, hd, hk⟩
    have hj : j < ShardCount := by
      rw [← hs.1]
      by_contra hlt
      rw [List.getElem?_eq_none (by omega)] at hd
      cases hd
    obtain ⟨d2, hd2, _, hkk⟩ := hs.2 j hj
    rw [hd] at hd2
    cases hd2
    have := hkk k hk
    rw [hi] at this
    cases this
    rw [hc] at hd
    cases hd
    exact hk
  · intro hk
    exact ⟨i, c, hc, hk⟩

theorem Load_some_iff_mem (arch : Arch) (s : ShardMap V) (hs : WF arch s) (k : Key)
    (hk : k.Supported) : (∃ v, s.Load arch k = .ok (some v)) ↔ k ∈ s.keys := by
  obtain ⟨i, c, hi, _, hc, _, _⟩ := WF_lookup arch s hs k hk
  rw [WF_mem_keys_iff arch s hs k i c hi hc, ← SyncMap.Load_isSome_iff, Load_eq arch s k i c hi hc]
  constructor
  · rintro ⟨v, hv⟩; exact ⟨v, (Except.ok.inj hv)⟩
  · rintro ⟨v, hv⟩; exact ⟨v, by rw [hv]⟩

theorem Load_none_iff_not_mem (arch : Arch) (s : ShardMap V) (hs : WF arch s) (k : Key)
    (hk : k.Supported) : s.Load arch k = .ok none ↔ k ∉ s.keys := by
  obtain ⟨i, c, hi, _, hc, _, _⟩ := WF_lookup arch s hs k hk
  rw [WF_mem_keys_iff arch s hs k i c hi hc, ← SyncMap.Load_eq_none_iff,
    Load_eq arch s k i c hi hc]
  constructor
  · intro h; exact Except.ok.inj h
  · intro h; rw [h]

theorem WF_keys_nodup (arch : Arch) (s : ShardMap V) (hs : WF arch s) : s.keys.Nodup := by
  rw [keys, List.nodup_flatMap]
  constructor
  · intro p hp
    obtain ⟨j, hj⟩ := List.getElem?_of_mem hp
    have hlt : j < ShardCount := by
      rw [← hs.1]
      by_contra hlt
      rw [List.getElem?_eq_none (by omega)] at hj
      cases hj
    obtain ⟨c, hc, hn, _⟩ := hs.2 j hlt
    rw [hj] at hc
    cases hc
    exact hn
  · rw [List.pairwise_iff_getElem]
    intro i j hi hj hij
    rw [hs.1] at hi hj
    obtain ⟨c, hc, _, hck⟩ := hs.2 i hi
    obtain ⟨d, hd, _, hdk⟩ := hs.2 j hj
    rw [List.getElem?_eq_getElem (by rw [hs.1]; exact hi)] at hc
    rw [List.getElem?_eq_getElem (by rw [hs.1]; exact hj)] at hd
    rw [Option.some.inj hc, Option.some.inj hd]
    intro k hk1 hk2
    have h1 := hck k hk1
    have h2 := hdk k hk2
    rw [h1] at h2
    cases h2
    omega

theorem length_keys_set (s : ShardMap V) (i : Nat) (c d : SyncMap V)
    (hc : s.shards[i]? = some (some c)) :
    (keys ⟨s.shards.set i (some d)⟩).length + c.keys.length
      = s.keys.length + d.keys.length := by
  have hlt : i < s.shards.length := by
    by_contra hlt
    rw [List.getElem?_eq_none (by omega)] at hc
    cases hc
  have hci : s.shards[i] = some c := by
    rw [List.getElem?_eq_getElem hlt] at hc
    exact Option.some.inj hc
  have hset : (keys ⟨s.shards.set i (some d)⟩).length
      = ((s.shards.map (List.length ∘ shardKeys)).take i).sum + d.keys.length
        + ((s.shards.map (List.length ∘ shardKeys)).drop (i + 1)).sum := by
    rw [keys, List.length_flatMap, List.map_set, List.sum_set]
    simp [hlt, shardKeys]
  have h1 := List.sum_take_add_sum_drop (s.shards.map (List.length ∘ shardKeys)) i
  rw [List.drop_eq_getElem_cons (by simpa using hlt), List.sum_cons] at h1
  simp only [List.getElem_map, hci, Function.comp, shardKeys] at h1
  have h2 : s.keys.length = (s.shards.map (List.length ∘ shardKeys)).sum := by
    rw [keys, List.length_flatMap]
  omega

theorem mem_keys_set (s : ShardMap V) (i : Nat) (d : SyncMap V) (k : Key)
    (hlt : i < s.shards.length) :
    k ∈ keys ⟨s.shards.set i (some d)⟩ ↔
      k ∈ d.keys ∨ ∃ (j : Nat) (c : SyncMap V), j ≠ i ∧ s.shards[j]? = some (some c) ∧ k ∈ c.keys := by
  rw [mem_keys_iff]
  constructor
  · rintro ⟨j, c, hj, hk⟩
    by_cases hij : i = j
    · subst hij
      simp only [List.getElem?_set, hlt, if_true] at hj
      cases hj
      exact Or.inl hk
    · simp only [List.getElem?_set, hij, if_false] at hj
      exact Or.inr ⟨j, c, fun h => hij h.symm, hj, hk⟩
  · rintro (hk | ⟨j, c, hji, hj, hk⟩)
    · exact ⟨i, d, by simp [List.getElem?_set, hlt], hk⟩
    · exact ⟨j, c, by simp [List.getElem?_set, Ne.symm hji, hj], hk⟩

end ShardMap

end Shardmap

namespace Shardmap

namespace ShardMap

variable {V : Type}

/-! ## Effect of Store and Delete on the keys -/

theorem getElem?_lt {α : Type} (l : List α) (i : Nat) (a : α) (h : l[i]? = some a) :
    i < l.length := by
  by_contra hlt
  rw [List.getElem?_eq_none (by omega)] at h
  cases h

theorem mem_keys_other (arch : Arch) (s : ShardMap V) (hs : WF arch s) (i : Nat) (k : Key)
    (hi : shardIndex arch k = .ok i) :
    ¬ ∃ (j : Nat) (c : SyncMap V), j ≠ i ∧ s.shards[j]? = some (some c) ∧ k ∈ c.keys := by
  rintro ⟨j, c, hji, hc, hk⟩
  have hj : j < ShardCount := by rw [← hs.1]; exact getElem?_lt _ _ _ hc
  obtain ⟨d, hd, _, hdk⟩ := hs.2 j hj
  rw [hc] at hd
  rw [← Option.some.inj (Option.some.inj hd)] at hdk
  have := hdk k hk
  rw [hi] at this
  exact hji (Except.ok.inj this).symm

theorem mem_keys_Store (arch : Arch) (s s1 : ShardMap V) (hs : WF arch s) (k k2 : Key) (v : V)
    (h : s.Store arch k v = .ok s1) : k2 ∈ s1.keys ↔ k2 = k ∨ k2 ∈ s.keys := by
  by_cases hk : k.Supported
  · obtain ⟨i, c, hi, _, hc, _, _⟩ := WF_lookup arch s hs k hk
    rw [Store_eq arch s k v i c hi hc] at h
    rw [← Except.ok.inj h, mem_keys_set s i _ k2 (getElem?_lt _ _ _ hc), SyncMap.keys_Store,
      List.mem_cons, SyncMap.entry_mem_keys_Delete, mem_keys_iff]
    constructor
    · rintro ((h1 | ⟨h1, _⟩) | ⟨j, d, _, hd, hk2⟩)
      · exact Or.inl h1
      · exact Or.inr ⟨i, c, hc, h1⟩
      · exact Or.inr ⟨j, d, hd, hk2⟩
    · rintro (h1 | ⟨j, d, hd, hk2⟩)
      · exact Or.inl (Or.inl h1)
      · by_cases hji : j = i
        · subst hji
          rw [hc] at hd
          rw [← Option.some.inj (Option.some.inj hd)] at hk2
          by_cases hkk : k2 = k
          · exact Or.inl (Or.inl hkk)
          · exact Or.inl (Or.inr ⟨hk2, hkk⟩)
        · exact Or.inr ⟨j, d, hji, hd, hk2⟩
  · rw [Store_unsupported arch s k v hk] at h; cases h

theorem mem_keys_Delete (arch : Arch) (s s1 : ShardMap V) (hs : WF arch s) (k k2 : Key)
    (h : s.Delete arch k = .ok s1) : k2 ∈ s1.keys ↔ k2 ∈ s.keys ∧ k2 ≠ k := by
  by_cases hk : k.Supported
  · obtain ⟨i, c, hi, _, hc, _, _⟩ := WF_lookup arch s hs k hk
    rw [Delete_eq arch s k i c hi hc] at h
    rw [← Except.ok.inj h, mem_keys_set s i _ k2 (getElem?_lt _ _ _ hc),
      SyncMap.entry_mem_keys_Delete, mem_keys_iff]
    constructor
    · rintro (⟨h1, h2⟩ | ⟨j, d, hji, hd, hk2⟩)
      · exact ⟨⟨i, c, hc, h1⟩, h2⟩
      · refine ⟨⟨j, d, hd, hk2⟩, ?_⟩
        rintro rfl
        exact mem_keys_other arch s hs i k2 hi ⟨j, d, hji, hd, hk2⟩
    · rintro ⟨⟨j, d, hd, hk2⟩, hne⟩
      by_cases hji : j = i
      · subst hji
        rw [hc] at hd
        rw [← Option.some.inj (Option.some.inj hd)] at hk2
        exact Or.inl ⟨hk2, hne⟩
      · exact Or.inr ⟨j, d, hji, hd, hk2⟩
  · rw [Delete_unsupported arch s k hk] at h; cases h

theorem length_keys_Store_of_not_mem (arch : Arch) (s s1 : ShardMap V) (hs : WF arch s)
    (k : Key) (v : V) (hk : k ∉ s.keys) (h : s.Store arch k v = .ok s1) :
    s1.keys.length = s.keys.length + 1 := by
  by_cases hsup : k.Supported
  · obtain ⟨i, c, hi, _, hc, _, _⟩ := WF_lookup arch s hs k hsup
    rw [Store_eq arch s k v i c hi hc] at h
    rw [← Except.ok.inj h]
    have h1 := length_keys_set s i c (c.Store k v) hc
    have hkc : k ∉ c.keys := fun hm => hk ((WF_mem_keys_iff arch s hs k i c hi hc).2 hm)
    rw [SyncMap.keys_Store, SyncMap.entry_Delete_of_not_mem c k hkc, List.length_cons] at h1
    omega
  · rw [Store_unsupported arch s k v hsup] at h; cases h

theorem length_keys_Store_of_mem (arch : Arch) (s s1 : ShardMap V) (hs : WF arch s)
    (k : Key) (v : V) (hk : k ∈ s.keys) (h : s.Store arch k v = .ok s1) :
    s1.keys.length = s.keys.length := by
  by_cases hsup : k.Supported
  · obtain ⟨i, c, hi, _, hc, hn, _⟩ := WF_lookup arch s hs k hsup
    rw [Store_eq arch s k v i c hi hc] at h
    rw [← Except.ok.inj h]
    have h1 := length_keys_set s i c (c.Store k v) hc
    have hkc : k ∈ c.keys := (WF_mem_keys_iff arch s hs k i c hi hc).1 hk
    have h2 := SyncMap.entry_length_keys_Delete_of_mem c k hn hkc
    rw [SyncMap.keys_Store, List.length_cons] at h1
    omega
  · rw [Store_unsupported arch s k v hsup] at h; cases h

theorem length_keys_Delete_of_mem (arch : Arch) (s s1 : ShardMap V) (hs : WF arch s)
    (k : Key) (hk : k ∈ s.keys) (h : s.Delete arch k = .ok s1) :
    s1.keys.length + 1 = s.keys.length := by
  by_cases hsup : k.Supported
  · obtain ⟨i, c, hi, _, hc, hn, _⟩ := WF_lookup arch s hs k hsup
    rw [Delete_eq arch s k i c hi hc] at h
    rw [← Except.ok.inj h]
    have h1 := length_keys_set s i c (c.Delete k) hc
    have hkc : k ∈ c.keys := (WF_mem_keys_iff arch s hs k i c hi hc).1 hk
    have h2 := SyncMap.entry_length_keys_Delete_of_mem c k hn hkc
    omega
  · rw [Delete_unsupported arch s k hsup] at h; cases h

theorem Delete_of_not_mem (arch : Arch) (s : ShardMap V) (hs : WF arch s) (k : Key)
    (hsup : k.Supported) (hk : k ∉ s.keys) : s.Delete arch k = .ok s := by
  obtain ⟨i, c, hi, _, hc, _, _⟩ := WF_lookup arch s hs k hsup
  have hkc : k ∉ c.keys := fun hm => hk ((WF_mem_keys_iff arch s hs k i c hi hc).2 hm)
  rw [Delete_eq arch s k i c hi hc, SyncMap.entry_Delete_of_not_mem c k hkc,
    set_of_getElem? _ _ _ hc]

theorem Load_Store_same (arch : Arch) (s : ShardMap V) (hs : WF arch s) (k : Key)
    (hk : k.Supported) (v : V) :
    ∃ s1, s.Store arch k v = .ok s1 ∧ s1.Load arch k = .ok (some v) := by
  obtain ⟨i, c, hi, _, hc, _, _⟩ := WF_lookup arch s hs k hk
  refine ⟨_, Store_eq arch s k v i c hi hc, ?_⟩
  rw [Load_eq arch _ k i (c.Store k v) hi
    (by simp [List.getElem?_set, getElem?_lt _ _ _ hc]), SyncMap.entry_Load_Store_same]

theorem Load_Delete_same (arch : Arch) (s : ShardMap V) (hs : WF arch s) (k : Key)
    (hk : k.Supported) :
    ∃ s1, s.Delete arch k = .ok s1 ∧ s1.Load arch k = .ok none := by
  obtain ⟨i, c, hi, _, hc, _, _⟩ := WF_lookup arch s hs k hk
  refine ⟨_, Delete_eq arch s k i c hi hc, ?_⟩
  rw [Load_eq arch _ k i (c.Delete k) hi
    (by simp [List.getElem?_set, getElem?_lt _ _ _ hc]), SyncMap.entry_Load_Delete_same]

theorem Load_Delete_other (arch : Arch) (s s1 : ShardMap V) (hs : WF arch s) (k k2 : Key)
    (hne : k2 ≠ k) (h : s.Delete arch k = .ok s1) : s1.Load arch k2 = s.Load arch k2 := by
  by_cases hk : k.Supported
  · obtain ⟨i, c, hi, _, hc, _, _⟩ := WF_lookup arch s hs k hk
    rw [Delete_eq arch s k i c hi hc] at h
    rw [← Except.ok.inj h]
    by_cases hk2 : k2.Supported
    · obtain ⟨j, d, hj, _, hd, _, _⟩ := WF_lookup arch s hs k2 hk2
      by_cases hij : i = j
      · subst hij
        rw [hc] at hd
        rw [← Option.some.inj (Option.some.inj hd)] at *
        rw [Load_eq arch s k2 i c hj hc, Load_eq arch _ k2 i (c.Delete k) hj
          (by simp [List.getElem?_set, getElem?_lt _ _ _ hc]),
          SyncMap.entry_Load_Delete_other c k k2 hne]
      · rw [Load_eq arch s k2 j d hj hd, Load_eq arch _ k2 j d hj
          (by simp [List.getElem?_set, hij, hd])]
    · rw [Load_unsupported arch _ k2 hk2, Load_unsupported arch _ k2 hk2]
  · rw [Delete_unsupported arch s k hk] at h; cases h

theorem keys_New : (New : ShardMap V).keys = [] := by
  rw [List.eq_nil_iff_forall_not_mem]
  intro k hk
  rw [mem_keys_iff, New_eq] at hk
  obtain ⟨j, c, hc, hkc⟩ := hk
  rw [List.getElem?_replicate] at hc
  split at hc
  · rw [← Option.some.inj (Option.some.inj hc)] at hkc
    simp [SyncMap.empty, SyncMap.keys] at hkc
  · cases hc

theorem WF_supported (arch : Arch) (s : ShardMap V) (hs : WF arch s) (k : Key)
    (hk : k ∈ s.keys) : k.Supported := by
  rw [mem_keys_iff] at hk
  obtain ⟨j, c, hc, hkc⟩ := hk
  have hj : j < ShardCount := by rw [← hs.1]; exact getElem?_lt _ _ _ hc
  obtain ⟨d, hd, _, hdk⟩ := hs.2 j hj
  rw [hc] at hd
  rw [← Option.some.inj (Option.some.inj hd)] at hdk
  exact supported_of_shardIndex arch k j (hdk k hkc)

end ShardMap

end Shardmap

namespace Shardmap

namespace ShardMap

variable {V : Type}

/-! ## Storing a list of pairs -/

theorem storeAll_fresh (arch : Arch) :
    ∀ (kvs : List (Key × V)) (s : ShardMap V), Reachable arch s →
      (kvs.map Prod.fst).Nodup → (∀ e ∈ kvs, e.1.Supported) → (∀ e ∈ kvs, e.1 ∉ s.keys) →
      ∃ s1, storeAll arch kvs s = .ok s1 ∧ Reachable arch s1 ∧
        s1.keys.length = s.keys.length + kvs.length ∧
        ∀ k, k ∈ s1.keys ↔ k ∈ s.keys ∨ k ∈ kvs.map Prod.fst
  | [], s, hs, _, _, _ => ⟨s, rfl, hs, rfl, fun k => by simp⟩
  | e :: rest, s, hs, hn, hsup, hfresh => by
    have hwf := Reachable_WF arch s hs
    obtain ⟨s0, h0, _⟩ := Load_Store_same arch s hwf e.1 (hsup e (List.mem_cons_self _ _)) e.2
    have hs0 : Reachable arch s0 := Reachable.store e.1 e.2 hs h0
    have hlen := length_keys_Store_of_not_mem arch s s0 hwf e.1 e.2
      (hfresh e (List.mem_cons_self _ _)) h0
    rw [List.map_cons, List.nodup_cons] at hn
    obtain ⟨s1, h1, hr, hl, hm⟩ := storeAll_fresh arch rest s0 hs0 hn.2
      (fun x hx => hsup x (List.mem_cons_of_mem _ hx))
      (fun x hx hmem => by
        rcases (mem_keys_Store arch s s0 hwf e.1 x.1 e.2 h0).1 hmem with h2 | h2
        · exact hn.1 (h2 ▸ List.mem_map_of_mem Prod.fst hx)
        · exact hfresh x (List.mem_cons_of_mem _ hx) h2)
    refine ⟨s1, ?_, hr, ?_, ?_⟩
    · simp only [storeAll]
      rw [h0]
      exact h1
    · rw [hl, hlen, List.length_cons]; omega
    · intro k
      rw [hm k, mem_keys_Store arch s s0 hwf e.1 k e.2 h0, List.map_cons, List.mem_cons]
      tauto

theorem Reachable_storeAll (arch : Arch) :
    ∀ (kvs : List (Key × V)) (s s1 : ShardMap V), Reachable arch s →
      storeAll arch kvs s = .ok s1 → Reachable arch s1
  | [], s, s1, hs, h => by
    rw [← Except.ok.inj h]; exact hs
  | e :: rest, s, s1, hs, h => by
    simp only [storeAll] at h
    cases h0 : s.Store arch e.1 e.2 with
    | error err => rw [h0] at h; cases h
    | ok s0 =>
      rw [h0] at h
      exact Reachable_storeAll arch rest s0 s1 (Reachable.store e.1 e.2 hs h0) h

theorem Reachable_twoKeys : Reachable .bits64 twoKeys :=
  Reachable_storeAll .bits64 testPairs New twoKeys Reachable.new (by decide)

theorem manyKeys_spec :
    storeAll .bits64 manyKeys New = .ok manyKeysMap ∧ Reachable .bits64 manyKeysMap ∧
      manyKeysMap.keys.length = 2 ^ 32 ∧ Key.uint64 0 ∈ manyKeysMap.keys := by
  have hn : (manyKeys.map Prod.fst).Nodup := by
    rw [manyKeys, List.map_map]
    refine List.Nodup.map ?_ (List.nodup_range _)
    intro a b hab
    simpa using hab
  obtain ⟨s1, h1, h2, h3, h4⟩ := storeAll_fresh .bits64 manyKeys New Reachable.new hn
    (fun e he => by
      rw [manyKeys, List.mem_map] at he
      obtain ⟨n, _, rfl⟩ := he
      trivial)
    (fun e _ => by rw [keys_New]; exact List.not_mem_nil _)
  have hm : manyKeysMap = s1 := by rw [manyKeysMap, h1]; rfl
  rw [hm]
  refine ⟨h1, h2, ?_, ?_⟩
  · rw [h3, keys_New, manyKeys, List.length_map, List.length_range]
    rfl
  · rw [h4]
    refine Or.inr ?_
    rw [manyKeys, List.map_map, List.mem_map]
    exact ⟨0, List.mem_range.2 (by norm_num), rfl⟩

end ShardMap

end Shardmap

namespace Shardmap

namespace ShardMap

variable {V : Type}

/-! ## Load, Store, Delete, Len and Clear -/

/-- C1. Round trip: in every state reachable from `New()`, for every key of a
supported type and every value, `Store(k, v)` returns and `Load(k)` right after it
returns `(v, true)`, whether or not `k` was present before. -/
theorem store_then_load (arch : Arch) (s : ShardMap V) (hs : Reachable arch s) (k : Key)
    (hk : k.Supported) (v : V) :
    ∃ s1, s.Store arch k v = .ok s1 ∧ s1.Load arch k = .ok (some v) :=
  Load_Store_same arch s (Reachable_WF arch s hs) k hk v

/-- Instance of C1 on the map of the tests: "key1" is overwritten. -/
theorem store_then_load_witness :
    Reachable .bits64 twoKeys ∧ (Key.string (utf8 "key1")).Supported ∧
    ∃ s1, twoKeys.Store .bits64 (.string (utf8 "key1")) "other" = .ok s1 ∧
      s1.Load .bits64 (.string (utf8 "key1")) = .ok (some "other") :=
  ⟨Reachable_twoKeys, by decide,
    store_then_load .bits64 twoKeys Reachable_twoKeys _ (by decide) "other"⟩

/-- C2. Deletion: in every reachable state, for every key of a supported type,
`Delete(k)` returns and `Load(k)` right after it reports `found = false`, whether
`k` was present or not. -/
theorem delete_then_load (arch : Arch) (s : ShardMap V) (hs : Reachable arch s) (k : Key)
    (hk : k.Supported) :
    ∃ s1, s.Delete arch k = .ok s1 ∧ s1.Load arch k = .ok none :=
  Load_Delete_same arch s (Reachable_WF arch s hs) k hk

/-- Instance of C2 on the map of the tests. -/
theorem delete_then_load_witness :
    Reachable .bits64 twoKeys ∧ (Key.string (utf8 "key1")).Supported ∧
    ∃ s1, twoKeys.Delete .bits64 (.string (utf8 "key1")) = .ok s1 ∧
      s1.Load .bits64 (.string (utf8 "key1")) = .ok none :=
  ⟨Reachable_twoKeys, by decide,
    delete_then_load .bits64 twoKeys Reachable_twoKeys _ (by decide)⟩

/-- C3 as stated fails: the map that holds the `2^32` keys `uint64(0)`, ...,
`uint64(2^32 - 1)` is reachable from `New()` by `Store` alone, its keys are pairwise
different, and `Len()` returns 0. -/
theorem len_wraps_at_two_pow_32 :
    storeAll .bits64 manyKeys New = .ok manyKeysMap ∧ Reachable .bits64 manyKeysMap ∧
    manyKeysMap.keys.Nodup ∧ manyKeysMap.keys.length = 4294967296 ∧
    manyKeysMap.Len = .ok 0 ∧ manyKeysMap.Len ≠ .ok manyKeysMap.keys.length := by
  obtain ⟨h1, h2, h3, _⟩ := manyKeys_spec
  have hwf := Reachable_WF .bits64 manyKeysMap h2
  have hlen : manyKeysMap.Len = .ok 0 := by
    rw [Len_eq manyKeysMap (WF_NonNil .bits64 _ hwf), h3, Nat.mod_self]
  refine ⟨h1, h2, WF_keys_nodup .bits64 _ hwf, h3, hlen, ?_⟩
  rw [hlen, h3]
  intro h
  have := Except.ok.inj h
  norm_num at this

/-- C3, amended. Count accuracy: in every state reachable from `New()` by
`Store`, `Delete` and `Clear`, the keys of the shards are pairwise different, a key
is among them exactly when `Load` finds it, and `Len()` returns their number modulo
`2^32` (the counter is a `uint32`), hence their number when it is below `2^32`.
In particular `Len()` is `N` modulo `2^32` after `N` pairwise different keys have
been stored in a new map. -/
theorem len_counts_keys_mod (arch : Arch) (s : ShardMap V) (hs : Reachable arch s) :
    s.keys.Nodup ∧
    (∀ k, k ∈ s.keys ↔ k.Supported ∧ ∃ v, s.Load arch k = .ok (some v)) ∧
    s.Len = .ok (s.keys.length % 2 ^ 32) ∧
    (s.keys.length < 2 ^ 32 → s.Len = .ok s.keys.length) ∧
    ∀ kvs : List (Key × V), (kvs.map Prod.fst).Nodup → (∀ e ∈ kvs, e.1.Supported) →
      ∃ s1, storeAll arch kvs New = .ok s1 ∧ s1.Len = .ok (kvs.length % 2 ^ 32) ∧
        (kvs.length < 2 ^ 32 → s1.Len = .ok kvs.length) := by
  have hwf := Reachable_WF arch s hs
  have hlen := Len_eq s (WF_NonNil arch s hwf)
  refine ⟨WF_keys_nodup arch s hwf, ?_, hlen, ?_, ?_⟩
  · intro k
    constructor
    · intro hk
      have hsup := WF_supported arch s hwf k hk
      exact ⟨hsup, (Load_some_iff_mem arch s hwf k hsup).2 hk⟩
    · rintro ⟨hsup, hv⟩
      exact (Load_some_iff_mem arch s hwf k hsup).1 hv
  · intro h
    rw [hlen, Nat.mod_eq_of_lt h]
  · intro kvs hn hsup
    obtain ⟨s1, h1, h2, h3, _⟩ := storeAll_fresh arch kvs New Reachable.new hn hsup
      (fun e _ => by rw [keys_New]; exact List.not_mem_nil _)
    have hl := Len_eq s1 (WF_NonNil arch s1 (Reachable_WF arch s1 h2))
    rw [h3, keys_New, List.length_nil, Nat.zero_add] at hl
    refine ⟨s1, h1, hl, ?_⟩
    intro h
    rw [hl, Nat.mod_eq_of_lt h]

/-- Instance of C3 on the map of the tests: `Len()` is 2. -/
theorem len_counts_keys_mod_witness :
    Reachable .bits64 twoKeys ∧ twoKeys.Len = .ok (twoKeys.keys.length % 2 ^ 32) ∧
    twoKeys.keys.length = 2 :=
  ⟨Reachable_twoKeys, (len_counts_keys_mod .bits64 twoKeys Reachable_twoKeys).2.2.1,
    by decide⟩

/-- C4. Clear empties the map: in every reachable state `Clear()` returns, and
afterwards `Len()` is 0 and `Load(k)` reports `found = false` for every key of a
supported type, present before the call or not. -/
theorem clear_empties_map (arch : Arch) (s : ShardMap V) (hs : Reachable arch s) :
    ∃ s1, s.Clear = .ok s1 ∧ s1.Len = .ok 0 ∧
      ∀ k : Key, k.Supported → s1.Load arch k = .ok none := by
  have hwf := Reachable_WF arch s hs
  refine ⟨New, Clear_eq_New arch s hwf, ?_, ?_⟩
  · rw [Len_eq New (WF_NonNil arch _ (WF_New arch)), keys_New]
    rfl
  · intro k hk
    rw [Load_none_iff_not_mem arch New (WF_New arch) k hk, keys_New]
    exact List.not_mem_nil _

/-- Instance of C4 on the map of the tests. -/
theorem clear_empties_map_witness :
    Reachable .bits64 twoKeys ∧
    ∃ s1, twoKeys.Clear = .ok s1 ∧ s1.Len = .ok 0 ∧
      ∀ k : Key, k.Supported → s1.Load .bits64 k = .ok none :=
  ⟨Reachable_twoKeys, clear_empties_map .bits64 twoKeys Reachable_twoKeys⟩

/-- C5. Unsupported keys are the single error condition: in every reachable
state `Store`, `Load` and `Delete` panic exactly when the key has none of the types
string, int, int8, int16, int32, int64, uint, uint8, uint16, uint32, uint64,
uintptr, and the panic is the one of `fnv1a32`; for a key of a supported type they
return, and `Load` and `Delete` of an absent key report absence (`found = false`,
map unchanged). -/
theorem unsupported_key_is_only_fault (arch : Arch) (s : ShardMap V)
    (hs : Reachable arch s) (k : Key) (v : V) :
    ((∃ e, s.Store arch k v = .error e) ↔ ¬ k.Supported) ∧
    ((∃ e, s.Load arch k = .error e) ↔ ¬ k.Supported) ∧
    ((∃ e, s.Delete arch k = .error e) ↔ ¬ k.Supported) ∧
    (¬ k.Supported → s.Store arch k v = .error Fault.unsupportedKeyType ∧
      s.Load arch k = .error Fault.unsupportedKeyType ∧
      s.Delete arch k = .error Fault.unsupportedKeyType) ∧
    (k.Supported → (∃ s1, s.Store arch k v = .ok s1) ∧ (∃ r, s.Load arch k = .ok r) ∧
      ∃ s1, s.Delete arch k = .ok s1) ∧
    (k.Supported → k ∉ s.keys → s.Load arch k = .ok none ∧ s.Delete arch k = .ok s) := by
  have hwf := Reachable_WF arch s hs
  have hok : k.Supported → (∃ s1, s.Store arch k v = .ok s1) ∧
      (∃ r, s.Load arch k = .ok r) ∧ ∃ s1, s.Delete arch k = .ok s1 := by
    intro hk
    obtain ⟨i, c, hi, _, hc, _, _⟩ := WF_lookup arch s hwf k hk
    exact ⟨⟨_, Store_eq arch s k v i c hi hc⟩, ⟨_, Load_eq arch s k i c hi hc⟩,
      ⟨_, Delete_eq arch s k i c hi hc⟩⟩
  have hbad : ¬ k.Supported → s.Store arch k v = .error Fault.unsupportedKeyType ∧
      s.Load arch k = .error Fault.unsupportedKeyType ∧
      s.Delete arch k = .error Fault.unsupportedKeyType :=
    fun hk => ⟨Store_unsupported arch s k v hk, Load_unsupported arch s k hk,
      Delete_unsupported arch s k hk⟩
  refine ⟨⟨?_, fun hk => ⟨_, (hbad hk).1⟩⟩, ⟨?_, fun hk => ⟨_, (hbad hk).2.1⟩⟩,
    ⟨?_, fun hk => ⟨_, (hbad hk).2.2⟩⟩, hbad, hok, ?_⟩
  · rintro ⟨e, he⟩ hk
    obtain ⟨s1, h1⟩ := (hok hk).1
    rw [h1] at he; cases he
  · rintro ⟨e, he⟩ hk
    obtain ⟨r, h1⟩ := (hok hk).2.1
    rw [h1] at he; cases he
  · rintro ⟨e, he⟩ hk
    obtain ⟨s1, h1⟩ := (hok hk).2.2
    rw [h1] at he; cases he
  · intro hk habs
    exact ⟨(Load_none_iff_not_mem arch s hwf k hk).2 habs,
      Delete_of_not_mem arch s hwf k hk habs⟩

/-- Instance of C5 on the map of the tests, with a key of an unsupported type. -/
theorem unsupported_key_is_only_fault_witness :
    Reachable .bits64 twoKeys ∧
    twoKeys.Store .bits64 (.other 0) "v" = .error Fault.unsupportedKeyType :=
  ⟨Reachable_twoKeys,
    ((unsupported_key_is_only_fault .bits64 twoKeys Reachable_twoKeys (.other 0) "v").2.2.2.1
      (by decide)).1⟩

end ShardMap

end Shardmap

namespace Shardmap

/-! ## The hash algorithm -/

theorem hashLoop_eq_foldl (s : GoString) :
    ∀ (fuel i hash : Nat), i + fuel = s.length →
      hashLoop s s.length fuel i hash
        = (s.drop i).foldl (fun hash b => (hash * 16777619 % 2 ^ 32) ^^^ b.toNat) hash
  | 0, i, hash, h => by
    rw [List.drop_of_length_le (by omega)]
    rfl
  | fuel + 1, i, hash, h => by
    have hi : i < s.length := by omega
    rw [hashLoop, if_pos hi, List.getElem?_eq_getElem hi, List.drop_eq_getElem_cons hi,
      List.foldl_cons]
    exact hashLoop_eq_foldl s fuel (i + 1) _ (by omega)

theorem hashString_eq_referenceHash (s : GoString) : hashString s = referenceHash s := by
  rw [hashString, hashLoop_eq_foldl s s.length 0 _ (by omega), List.drop_zero]
  rfl

theorem foldl_hash_lt (s : GoString) :
    ∀ hash : Nat, hash < 2 ^ 32 →
      s.foldl (fun hash b => (hash * 16777619 % 2 ^ 32) ^^^ b.toNat) hash < 2 ^ 32 := by
  induction s with
  | nil => intro hash h; exact h
  | cons b s ih =>
    intro hash _
    rw [List.foldl_cons]
    apply ih
    apply Nat.xor_lt_two_pow (Nat.mod_lt _ (by norm_num))
    have : b.toNat < 256 := b.val.isLt
    omega

theorem referenceHash_lt (s : GoString) : referenceHash s < 2 ^ 32 :=
  foldl_hash_lt s _ (by norm_num)

theorem toUint_of_lt (arch : Arch) (x : Nat) (h : x < 2 ^ 32) : toUint arch x = x := by
  cases arch
  · exact Nat.mod_eq_of_lt h
  · exact Nat.mod_eq_of_lt (lt_trans h (by decide))

/-- C6. Hash algorithm: for every key whose canonical string is `s`, `fnv1a32`
returns the reference fold of `s` (start from 2166136261; for each byte in order
multiply by 16777619 modulo `2^32`, then XOR with the byte), a 32-bit value, and the
index computed by `getShard` is that hash modulo the shard count 32, taken on
unsigned numbers. -/
theorem hash_is_reference_fold (arch : Arch) (k : Key) (s : GoString)
    (h : strKey arch k = .ok s) :
    hashString s = referenceHash s ∧
    fnv1a32 arch k = .ok (referenceHash s) ∧
    referenceHash s < 2 ^ 32 ∧
    shardIndex arch k = .ok (referenceHash s % ShardCount) := by
  have hf : fnv1a32 arch k = .ok (referenceHash s) := by
    simp only [fnv1a32, h]
    rw [← hashString_eq_referenceHash]
    rfl
  refine ⟨hashString_eq_referenceHash s, hf, referenceHash_lt s, ?_⟩
  rw [shardIndex_of_strKey arch k s h, hashString_eq_referenceHash,
    toUint_of_lt arch _ (referenceHash_lt s)]
  rfl

/-- Instance of C6 for the integer key 42, whose canonical string is "42". -/
theorem hash_is_reference_fold_witness :
    strKey .bits64 (.int 42) = .ok (utf8 "42") ∧
    fnv1a32 .bits64 (.int 42) = .ok (referenceHash (utf8 "42")) ∧
    shardIndex .bits64 (.int 42) = .ok (referenceHash (utf8 "42") % ShardCount) :=
  ⟨by decide, (hash_is_reference_fold .bits64 (.int 42) (utf8 "42") (by decide)).2.1,
    (hash_is_reference_fold .bits64 (.int 42) (utf8 "42") (by decide)).2.2.2⟩

/-- C7. Known vectors: on both targets `fnv1a32` of the string key "test_string"
is 2101758991 and `fnv1a32` of the `int` key 42, whose canonical string is "42",
is 494316163. -/
theorem known_vectors (arch : Arch) :
    fnv1a32 arch (.string (utf8 "test_string")) = .ok 2101758991 ∧
    fnv1a32 arch (.int 42) = .ok 494316163 ∧
    strKey arch (.int 42) = .ok (utf8 "42") := by
  cases arch <;> decide

end Shardmap

namespace Shardmap

/-! ## Canonical strings of integer keys -/

theorem digitByte_toNat : ∀ d : Nat, d < 10 → (digitByte d).toNat = 48 + d := by
  decide

theorem decimalValue_append (ds : GoString) (b : UInt8) :
    decimalValue (ds ++ [b]) = decimalValue ds * 10 + (b.toNat - 48) := by
  simp [decimalValue, List.foldl_append]

theorem formatBits_spec :
    ∀ (fuel u : Nat) (acc : GoString), u < fuel →
      ∃ ds, formatBits fuel u acc = ds ++ acc ∧ ds ≠ [] ∧
        (∀ b ∈ ds, 48 ≤ b.toNat ∧ b.toNat ≤ 57) ∧
        (ds.head? = some 48 → u = 0 ∧ ds = [48]) ∧ decimalValue ds = u
  | 0, u, acc, h => by omega
  | fuel + 1, u, acc, h => by
    by_cases hu : u < 10
    · have hd := digitByte_toNat u hu
      refine ⟨[digitByte u], by simp [formatBits, hu], by simp, ?_, ?_, ?_⟩
      · intro b hb
        rw [List.mem_singleton.1 hb, hd]
        omega
      · intro hh
        simp only [List.head?_cons, Option.some.injEq] at hh
        have h0 : u = 0 := by
          have := congrArg UInt8.toNat hh
          rw [hd] at this
          have h48 : (48 : UInt8).toNat = 48 := rfl
          omega
        subst h0
        exact ⟨rfl, rfl⟩
      · simp only [decimalValue, List.foldl_cons, List.foldl_nil, hd]
        omega
    · obtain ⟨ds, h1, h2, h3, h4, h5⟩ := formatBits_spec fuel (u / 10)
        (digitByte (u % 10) :: acc) (by omega)
      have hd := digitByte_toNat (u % 10) (Nat.mod_lt _ (by norm_num))
      refine ⟨ds ++ [digitByte (u % 10)], ?_, by simp, ?_, ?_, ?_⟩
      · rw [formatBits, if_neg hu, h1]
        simp
      · intro b hb
        rcases List.mem_append.1 hb with hb | hb
        · exact h3 b hb
        · rw [List.mem_singleton.1 hb, hd]
          omega
      · intro hh
        have : ds.head? = some 48 := by
          cases ds with
          | nil => exact absurd rfl h2
          | cons a t => simpa using hh
        have := (h4 this).1
        omega
      · rw [decimalValue_append, h5, hd]
        omega

theorem FormatUint_isNatDecimal (n : Nat) : IsNatDecimal (FormatUint n) n := by
  obtain ⟨ds, h1, h2, h3, h4, h5⟩ := formatBits_spec (n + 1) n [] (by omega)
  rw [FormatUint, h1, List.append_nil]
  exact ⟨h2, h3, fun hh => (h4 hh).2, h5⟩

theorem Itoa_isDecimal (n : Int) : IsDecimal (Itoa n) n := by
  unfold IsDecimal Itoa
  by_cases h : n < 0
  · rw [if_pos h, if_pos h]
    exact ⟨_, rfl, FormatUint_isNatDecimal _⟩
  · rw [if_neg h, if_neg h]
    exact FormatUint_isNatDecimal _

theorem Itoa_natCast (v : Nat) : Itoa (v : Int) = FormatUint v := by
  simp [Itoa]

theorem toSigned_of_fits (arch : Arch) (v : Int)
    (h : -(2 ^ (arch.intSize - 1) : Int) ≤ v ∧ v < 2 ^ (arch.intSize - 1)) :
    toSigned arch.intSize v = v := by
  cases arch <;> simp only [Arch.intSize, toSigned] at h ⊢ <;> norm_num at h ⊢ <;> omega

/-- The canonical string of an integer key is the base-10 rendering of its
value, provided an `int64` value fits the `int` of the target (always so on a
64-bit target). -/
theorem strKey_eq_Itoa (arch : Arch) (k : Key) (n : Int) (hv : k.Valid arch)
    (hf : k.FitsInt arch) (hn : k.intValue = some n) :
    strKey arch k = .ok (Itoa n) ∧ IsDecimal (Itoa n) n := by
  refine ⟨?_, Itoa_isDecimal n⟩
  have h64 : ∀ v : Nat, v < 2 ^ 64 → toUnsigned 64 v = v := fun v h => Nat.mod_eq_of_lt h
  have hsmall : ∀ v : Int, -(2 ^ 31 : Int) ≤ v ∧ v < 2 ^ 31 →
      toSigned arch.intSize v = v := by
    intro v h
    apply toSigned_of_fits
    cases arch <;> simp only [Arch.intSize] <;> norm_num at h ⊢ <;> omega
  have hword : ∀ v : Nat, v < 2 ^ arch.intSize → v < 2 ^ 64 := by
    intro v h
    cases arch <;> simp only [Arch.intSize] at h <;> omega
  cases k with
  | string v => cases hn
  | other tag => cases hn
  | int v => cases hn; rfl
  | int8 v =>
    cases hn
    simp only [Key.Valid] at hv
    simp only [strKey, hsmall n (by norm_num at hv ⊢; omega)]; rfl
  | int16 v =>
    cases hn
    simp only [Key.Valid] at hv
    simp only [strKey, hsmall n (by norm_num at hv ⊢; omega)]; rfl
  | int32 v =>
    cases hn
    simp only [Key.Valid] at hv
    simp only [strKey, hsmall n (by norm_num at hv ⊢; omega)]; rfl
  | int64 v =>
    cases hn
    simp only [strKey, toSigned_of_fits arch n hf]; rfl
  | uint v =>
    cases hn
    simp only [strKey, h64 v (hword v hv), Itoa_natCast]; rfl
  | uint8 v =>
    cases hn
    simp only [Key.Valid] at hv
    simp only [strKey, h64 v (by omega), Itoa_natCast]; rfl
  | uint16 v =>
    cases hn
    simp only [Key.Valid] at hv
    simp only [strKey, h64 v (by omega), Itoa_natCast]; rfl
  | uint32 v =>
    cases hn
    simp only [Key.Valid] at hv
    simp only [strKey, h64 v (by omega), Itoa_natCast]; rfl
  | uint64 v =>
    cases hn
    simp only [strKey, Itoa_natCast]; rfl
  | uintptr v =>
    cases hn
    simp only [strKey, h64 v (hword v hv), Itoa_natCast]; rfl

/-- C8 at the failing input. On a 32-bit target the `int64` key `4294967296` is a
valid key, its canonical string is "0" and not "4294967296", the base-10 rendering
of its value; its hash is the hash of the key `int64(0)`, and differs from the hash
of the string "4294967296" and from the hash of the equal `uint64` key. On
a 64-bit target the same key is hashed as "4294967296". -/
theorem int64_key_truncated_on_32_bit :
    (Key.int64 4294967296).Valid .bits32 ∧
    strKey .bits32 (.int64 4294967296) = .ok (utf8 "0") ∧
    Itoa 4294967296 = utf8 "4294967296" ∧
    fnv1a32 .bits32 (.int64 4294967296) = fnv1a32 .bits32 (.int64 0) ∧
    fnv1a32 .bits32 (.int64 4294967296) ≠ fnv1a32 .bits32 (.string (utf8 "4294967296")) ∧
    fnv1a32 .bits32 (.int64 4294967296) ≠ fnv1a32 .bits32 (.uint64 4294967296) ∧
    shardIndex .bits32 (.int64 4294967296) ≠ shardIndex .bits32 (.uint64 4294967296) ∧
    strKey .bits64 (.int64 4294967296) = .ok (utf8 "4294967296") := by
  decide

end Shardmap

namespace Shardmap

namespace ShardMap

variable {V : Type}

/-! ## Key identity -/

theorem Load_Store_other (arch : Arch) (s s1 : ShardMap V) (hs : WF arch s) (k k2 : Key)
    (v : V) (hne : k2 ≠ k) (h : s.Store arch k v = .ok s1) :
    s1.Load arch k2 = s.Load arch k2 := by
  by_cases hk : k.Supported
  · obtain ⟨i, c, hi, _, hc, _, _⟩ := WF_lookup arch s hs k hk
    rw [Store_eq arch s k v i c hi hc] at h
    rw [← Except.ok.inj h]
    by_cases hk2 : k2.Supported
    · obtain ⟨j, d, hj, _, hd, _, _⟩ := WF_lookup arch s hs k2 hk2
      by_cases hij : i = j
      · subst hij
        rw [hc] at hd
        rw [← Option.some.inj (Option.some.inj hd)] at *
        rw [Load_eq arch s k2 i c hj hc, Load_eq arch _ k2 i (c.Store k v) hj
          (by simp [List.getElem?_set, getElem?_lt _ _ _ hc]),
          SyncMap.entry_Load_Store_other c k k2 v hne]
      · rw [Load_eq arch s k2 j d hj hd, Load_eq arch _ k2 j d hj
          (by simp [List.getElem?_set, hij, hd])]
    · rw [Load_unsupported arch _ k2 hk2, Load_unsupported arch _ k2 hk2]
  · rw [Store_unsupported arch s k v hk] at h; cases h

theorem shardIndex_congr (arch : Arch) (k1 k2 : Key) (h : strKey arch k1 = strKey arch k2) :
    fnv1a32 arch k1 = fnv1a32 arch k2 ∧ shardIndex arch k1 = shardIndex arch k2 := by
  have hf : fnv1a32 arch k1 = fnv1a32 arch k2 := by simp only [fnv1a32, h]
  exact ⟨hf, by simp only [shardIndex, hf]⟩

/-- C9 as stated fails: the `int` key 42 and the string key "42" have the same
canonical string, and so have `int8(5)` and `uint64(5)`, yet after `Store` under the
first key of each pair `Load` of the second reports `found = false`. -/
theorem same_canonical_string_distinct_keys :
    strKey .bits64 (.int 42) = strKey .bits64 (.string (utf8 "42")) ∧
    (New : ShardMap String).Store .bits64 (.int 42) "v"
      = .ok (orNew ((New : ShardMap String).Store .bits64 (.int 42) "v")) ∧
    (orNew ((New : ShardMap String).Store .bits64 (.int 42) "v")).Load .bits64
      (.string (utf8 "42")) = .ok none ∧
    strKey .bits64 (.int8 5) = strKey .bits64 (.uint64 5) ∧
    (New : ShardMap String).Store .bits64 (.int8 5) "v"
      = .ok (orNew ((New : ShardMap String).Store .bits64 (.int8 5) "v")) ∧
    (orNew ((New : ShardMap String).Store .bits64 (.int8 5) "v")).Load .bits64
      (.uint64 5) = .ok none := by
  decide

/-- C9, amended. Key identity is the identity of Go interface values: for
supported keys `k1`, `k2` and every value `v`, in every reachable state, `Load(k2)`
right after `Store(k1, v)` returns `(v, true)` when `k2` has the dynamic type and the
value of `k1`, and returns what it returned before the `Store` when it differs from
`k1` in type or value, even with the same canonical string; keys with the same
canonical string have the same hash and the same shard index. -/
theorem key_identity_is_type_and_value (arch : Arch) (s : ShardMap V)
    (hs : Reachable arch s) (k1 k2 : Key) (h1 : k1.Supported) (v : V) :
    ∃ s1, s.Store arch k1 v = .ok s1 ∧
      (k2 = k1 → s1.Load arch k2 = .ok (some v)) ∧
      (k2 ≠ k1 → s1.Load arch k2 = s.Load arch k2) ∧
      (strKey arch k1 = strKey arch k2 →
        fnv1a32 arch k1 = fnv1a32 arch k2 ∧ shardIndex arch k1 = shardIndex arch k2) := by
  have hwf := Reachable_WF arch s hs
  obtain ⟨s1, hst, hl⟩ := Load_Store_same arch s hwf k1 h1 v
  refine ⟨s1, hst, ?_, ?_, shardIndex_congr arch k1 k2⟩
  · intro h; rw [h]; exact hl
  · intro h; exact Load_Store_other arch s s1 hwf k1 k2 v h hst

/-- Instance of C9 (amended) on the map of the tests, for the keys `int` 42 and
"42". -/
theorem key_identity_is_type_and_value_witness :
    Reachable .bits64 twoKeys ∧ (Key.int 42).Supported ∧
    ∃ s1, twoKeys.Store .bits64 (.int 42) "v" = .ok s1 ∧
      (Key.string (utf8 "42") = Key.int 42 →
        s1.Load .bits64 (.string (utf8 "42")) = .ok (some "v")) ∧
      (Key.string (utf8 "42") ≠ Key.int 42 →
        s1.Load .bits64 (.string (utf8 "42")) = twoKeys.Load .bits64 (.string (utf8 "42"))) ∧
      (strKey .bits64 (.int 42) = strKey .bits64 (.string (utf8 "42")) →
        fnv1a32 .bits64 (.int 42) = fnv1a32 .bits64 (.string (utf8 "42")) ∧
        shardIndex .bits64 (.int 42) = shardIndex .bits64 (.string (utf8 "42"))) :=
  ⟨Reachable_twoKeys, by decide,
    key_identity_is_type_and_value .bits64 twoKeys Reachable_twoKeys (.int 42)
      (.string (utf8 "42")) (by decide) "v"⟩

end ShardMap

end Shardmap

namespace Shardmap

namespace ShardMap

variable {V : Type}

/-! ## Range with a visitor that deletes one key -/

theorem deleteVisitor_other (arch : Arch) (k1 key : Key) (value : V) (w : ShardMap V × Unit)
    (h : key ≠ k1) : deleteVisitor arch k1 key value w = .ok w := by
  simp only [deleteVisitor, if_neg h]
  rfl

theorem deleteVisitor_same (arch : Arch) (k1 : Key) (value : V) (s s1 : ShardMap V)
    (h : s.Delete arch k1 = .ok s1) : deleteVisitor arch k1 k1 value (s, ()) = .ok (s1, ()) := by
  simp only [deleteVisitor, if_true, h]
  rfl

theorem visitKeys_delete_skip (arch : Arch) (k1 : Key) (i : Nat) (s : ShardMap V)
    (c : SyncMap V) (hc : s.shards[i]? = some (some c)) :
    ∀ ks : List Key, (k1 ∉ ks ∨ c.Load k1 = none) →
      visitKeys i (deleteVisitor arch k1) ks (s, ()) = .ok (s, ())
  | [], _ => rfl
  | key :: rest, h => by
    have hrest : k1 ∉ rest ∨ c.Load k1 = none :=
      h.imp (fun h1 hm => h1 (List.mem_cons_of_mem _ hm)) id
    have ih := visitKeys_delete_skip arch k1 i s c hc rest hrest
    cases hv : c.Load key with
    | none =>
      simp only [visitKeys, hc, hv]
      exact ih
    | some value =>
      have hne : key ≠ k1 := by
        rintro rfl
        rcases h with h | h
        · exact h (List.mem_cons_self _ _)
        · rw [h] at hv; cases hv
      simp only [visitKeys, hc, hv]
      rw [deleteVisitor_other arch k1 key value _ hne]
      exact ih

theorem visitKeys_delete_hit (arch : Arch) (k1 : Key) (i : Nat) (s : ShardMap V)
    (c : SyncMap V) (hi : shardIndex arch k1 = .ok i) (hc : s.shards[i]? = some (some c))
    (hk : k1 ∈ c.keys) :
    ∀ ks : List Key, k1 ∈ ks →
      visitKeys i (deleteVisitor arch k1) ks (s, ())
        = .ok (⟨s.shards.set i (some (c.Delete k1))⟩, ())
  | [], h => absurd h (List.not_mem_nil _)
  | key :: rest, h => by
    by_cases hkey : key = k1
    · subst hkey
      obtain ⟨value, hv⟩ := (SyncMap.Load_isSome_iff c key).2 hk
      simp only [visitKeys, hc, hv]
      rw [deleteVisitor_same arch key value s _ (Delete_eq arch s key i c hi hc)]
      exact visitKeys_delete_skip arch key i _ (c.Delete key)
        (by simp [List.getElem?_set, getElem?_lt _ _ _ hc]) rest
        (Or.inr (SyncMap.entry_Load_Delete_same c key))
    · have hrest : k1 ∈ rest := by
        rcases List.mem_cons.1 h with h1 | h1
        · exact absurd h1.symm hkey
        · exact h1
      have ih := visitKeys_delete_hit arch k1 i s c hi hc hk rest hrest
      cases hv : c.Load key with
      | none =>
        simp only [visitKeys, hc, hv]
        exact ih
      | some value =>
        simp only [visitKeys, hc, hv]
        rw [deleteVisitor_other arch k1 key value _ hkey]
        exact ih

theorem rangeShard_delete_skip (arch : Arch) (k1 : Key) (i : Nat) (s : ShardMap V)
    (c : SyncMap V) (hc : s.shards[i]? = some (some c)) (hk : k1 ∉ c.keys) :
    rangeShard i (deleteVisitor arch k1) (s, ()) = .ok (s, ()) := by
  simp only [rangeShard, hc]
  exact visitKeys_delete_skip arch k1 i s c hc c.keys (Or.inl hk)

theorem rangeShard_delete_hit (arch : Arch) (k1 : Key) (i : Nat) (s : ShardMap V)
    (c : SyncMap V) (hi : shardIndex arch k1 = .ok i) (hc : s.shards[i]? = some (some c))
    (hk : k1 ∈ c.keys) :
    rangeShard i (deleteVisitor arch k1) (s, ())
      = .ok (⟨s.shards.set i (some (c.Delete k1))⟩, ()) := by
  simp only [rangeShard, hc]
  exact visitKeys_delete_hit arch k1 i s c hi hc hk c.keys hk

theorem fanOut_delete_skip (arch : Arch) (k1 : Key) (s : ShardMap V) :
    ∀ l : List Nat, (∀ j ∈ l, ∃ c : SyncMap V, s.shards[j]? = some (some c) ∧ k1 ∉ c.keys) →
      fanOut (fun index => rangeShard index (deleteVisitor arch k1)) l (s, ()) = .ok (s, ())
  | [], _ => rfl
  | j :: l, h => by
    obtain ⟨c, hc, hk⟩ := h j (List.mem_cons_self _ _)
    simp only [fanOut]
    rw [rangeShard_delete_skip arch k1 j s c hc hk]
    exact fanOut_delete_skip arch k1 s l (fun x hx => h x (List.mem_cons_of_mem _ hx))

theorem fanOut_delete_hit (arch : Arch) (k1 : Key) (i : Nat) (s : ShardMap V)
    (c : SyncMap V) (hs : WF arch s) (hi : shardIndex arch k1 = .ok i)
    (hc : s.shards[i]? = some (some c)) (hk : k1 ∈ c.keys) :
    ∀ l : List Nat, i ∈ l → (∀ j ∈ l, j < ShardCount) →
      fanOut (fun index => rangeShard index (deleteVisitor arch k1)) l (s, ())
        = .ok (⟨s.shards.set i (some (c.Delete k1))⟩, ())
  | [], h, _ => absurd h (List.not_mem_nil _)
  | j :: l, h, hl => by
    by_cases hji : j = i
    · subst hji
      simp only [fanOut]
      rw [rangeShard_delete_hit arch k1 j s c hi hc hk]
      refine fanOut_delete_skip arch k1 _ l ?_
      intro x hx
      by_cases hxj : j = x
      · subst hxj
        exact ⟨c.Delete k1, by simp [List.getElem?_set, getElem?_lt _ _ _ hc],
          by simp [SyncMap.entry_mem_keys_Delete]⟩
      · obtain ⟨d, hd, _, _⟩ := hs.2 x (hl x (List.mem_cons_of_mem _ hx))
        refine ⟨d, by simp [List.getElem?_set, hxj, hd], ?_⟩
        intro hm
        exact mem_keys_other arch s hs j k1 hi ⟨x, d, fun h => hxj h.symm, hd, hm⟩
    · have hrest : i ∈ l := by
        rcases List.mem_cons.1 h with h1 | h1
        · exact absurd h1.symm hji
        · exact h1
      obtain ⟨d, hd, _, _⟩ := hs.2 j (hl j (List.mem_cons_self _ _))
      have hkd : k1 ∉ d.keys := fun hm =>
        mem_keys_other arch s hs i k1 hi ⟨j, d, hji, hd, hm⟩
      simp only [fanOut]
      rw [rangeShard_delete_skip arch k1 j s d hd hkd]
      exact fanOut_delete_hit arch k1 i s c hs hi hc hk l hrest
        (fun x hx => hl x (List.mem_cons_of_mem _ hx))

theorem Range_delete_present (arch : Arch) (s : ShardMap V) (hs : WF arch s) (k1 : Key)
    (hk : k1 ∈ s.keys) :
    ∃ s1, s.Delete arch k1 = .ok s1 ∧ s.Range (deleteVisitor arch k1) () = .ok (s1, ()) := by
  have hsup := WF_supported arch s hs k1 hk
  obtain ⟨i, c, hi, hlt, hc, _, _⟩ := WF_lookup arch s hs k1 hsup
  have hkc := (WF_mem_keys_iff arch s hs k1 i c hi hc).1 hk
  refine ⟨_, Delete_eq arch s k1 i c hi hc, ?_⟩
  rw [Range]
  exact fanOut_delete_hit arch k1 i s c hs hi hc hkc _
    (List.mem_range.2 (by rw [hs.1]; exact hlt))
    (fun j hj => by rw [← hs.1]; exact List.mem_range.1 hj)

end ShardMap

end Shardmap

namespace Shardmap

namespace ShardMap

variable {V : Type}

theorem Range_delete_effect (arch : Arch) (s : ShardMap V) (hs : Reachable arch s) (k1 : Key)
    (hk : k1 ∈ s.keys) :
    ∃ s1, s.Range (deleteVisitor arch k1) () = .ok (s1, ()) ∧ Reachable arch s1 ∧
      s1.Load arch k1 = .ok none ∧
      (∀ k2, k2 ≠ k1 → s1.Load arch k2 = s.Load arch k2) ∧
      s1.keys.length + 1 = s.keys.length := by
  have hwf := Reachable_WF arch s hs
  obtain ⟨s1, hd, hr⟩ := Range_delete_present arch s hwf k1 hk
  obtain ⟨s2, hd2, hl⟩ := Load_Delete_same arch s hwf k1 (WF_supported arch s hwf k1 hk)
  rw [hd] at hd2
  rw [← Except.ok.inj hd2] at hl
  exact ⟨s1, hr, Reachable.delete k1 hs hd, hl,
    fun k2 hne => Load_Delete_other arch s s1 hwf k1 k2 hne hd,
    length_keys_Delete_of_mem arch s s1 hwf k1 hk hd⟩

theorem storeAll_pair (arch : Arch) (k1 k2 : Key) (v1 v2 : V) (h1 : k1.Supported)
    (h2 : k2.Supported) (hne : k2 ≠ k1) :
    ∃ s2, storeAll arch [(k1, v1), (k2, v2)] New = .ok s2 ∧ Reachable arch s2 ∧
      k1 ∈ s2.keys ∧ s2.keys.length = 2 ∧ s2.Load arch k2 = .ok (some v2) := by
  obtain ⟨sa, ha, _⟩ := Load_Store_same arch (New : ShardMap V) (WF_New arch) k1 h1 v1
  have hra : Reachable arch sa := Reachable.store k1 v1 Reachable.new ha
  have hwa := Reachable_WF arch sa hra
  obtain ⟨s2, hb, hl⟩ := Load_Store_same arch sa hwa k2 h2 v2
  have hk1a : k1 ∈ sa.keys := (mem_keys_Store arch New sa (WF_New arch) k1 k1 v1 ha).2 (Or.inl rfl)
  have hk2a : k2 ∉ sa.keys := by
    intro hm
    rcases (mem_keys_Store arch New sa (WF_New arch) k1 k2 v1 ha).1 hm with h | h
    · exact hne h
    · rw [keys_New] at h; exact List.not_mem_nil _ h
  have hla := length_keys_Store_of_not_mem arch New sa (WF_New arch) k1 v1
    (by rw [keys_New]; exact List.not_mem_nil _) ha
  have hlb := length_keys_Store_of_not_mem arch sa s2 hwa k2 v2 hk2a hb
  rw [keys_New, List.length_nil] at hla
  refine ⟨s2, ?_, Reachable.store k2 v2 hra hb,
    (mem_keys_Store arch sa s2 hwa k2 k1 v2 hb).2 (Or.inr hk1a), by omega, hl⟩
  simp only [storeAll]
  rw [ha]
  show (do let s1 ← sa.Store arch k2 v2; pure s1) = Except.ok s2
  rw [hb]
  rfl

/-- C10 as stated fails on the count: in the reachable map that holds the `2^32`
keys `uint64(0)`, ..., `uint64(2^32 - 1)`, `Len()` is 0, and after `Range` with
the visitor that deletes `uint64(0)` `Len()` is 4294967295, not one less than before. -/
theorem len_after_range_delete_wraps :
    Reachable .bits64 manyKeysMap ∧ Key.uint64 0 ∈ manyKeysMap.keys ∧
    manyKeysMap.Len = .ok 0 ∧
    manyKeysMap.Range (deleteVisitor .bits64 (.uint64 0)) ()
      = .ok (orNew (manyKeysMap.Delete .bits64 (.uint64 0)), ()) ∧
    (orNew (manyKeysMap.Delete .bits64 (.uint64 0))).Len = .ok 4294967295 := by
  obtain ⟨_, hr, hlen, hmem⟩ := manyKeys_spec
  have hwf := Reachable_WF .bits64 manyKeysMap hr
  obtain ⟨s1, hd, hrange⟩ := Range_delete_present .bits64 manyKeysMap hwf _ hmem
  have h1 := length_keys_Delete_of_mem .bits64 manyKeysMap s1 hwf _ hmem hd
  have hwf1 := WF_Delete .bits64 manyKeysMap s1 _ hwf hd
  have hs1 : orNew (manyKeysMap.Delete .bits64 (.uint64 0)) = s1 := by rw [hd]; rfl
  rw [hs1]
  refine ⟨hr, hmem, ?_, hrange, ?_⟩
  · rw [Len_eq manyKeysMap (WF_NonNil .bits64 _ hwf), hlen, Nat.mod_self]
  · rw [Len_eq s1 (WF_NonNil .bits64 _ hwf1)]
    have : s1.keys.length = 4294967295 := by
      rw [hlen] at h1
      norm_num at h1
      omega
    rw [this]
    rfl

/-- C10, amended. Delete during iteration: in every reachable state and for every
key `k1` present, `Range` with the visitor that calls `Delete(k1)` when it is given
`k1` and does nothing otherwise returns; afterwards `Load(k1)` reports `found = false`,
every other key loads what it loaded before, the number of keys present is one less
than before, and `Len()`, before and after, is that number modulo `2^32` (so one
less than before whenever fewer than `2^32` keys were present). For contents
`{k1: v1, k2: v2}` the resulting `Len()` is 1 and `Load(k2)` returns `(v2, true)`. -/
theorem range_with_delete_visitor (arch : Arch) (s : ShardMap V) (hs : Reachable arch s)
    (k1 : Key) (hk : k1 ∈ s.keys) :
    (∃ s1, s.Range (deleteVisitor arch k1) () = .ok (s1, ()) ∧
      s1.Load arch k1 = .ok none ∧
      (∀ k2 v2, k2 ≠ k1 → s.Load arch k2 = .ok (some v2) → s1.Load arch k2 = .ok (some v2)) ∧
      ∃ n, s.keys.length = n + 1 ∧ s1.keys.length = n ∧
        s.Len = .ok ((n + 1) % 2 ^ 32) ∧ s1.Len = .ok (n % 2 ^ 32) ∧
        (n + 1 < 2 ^ 32 → s.Len = .ok (n + 1) ∧ s1.Len = .ok n)) ∧
    ∀ (k2 : Key) (v1 v2 : V), k2.Supported → k2 ≠ k1 →
      ∃ s2 s3, storeAll arch [(k1, v1), (k2, v2)] New = .ok s2 ∧
        s2.Range (deleteVisitor arch k1) () = .ok (s3, ()) ∧
        s3.Load arch k1 = .ok none ∧ s3.Load arch k2 = .ok (some v2) ∧ s3.Len = .ok 1 := by
  have hwf := Reachable_WF arch s hs
  constructor
  · obtain ⟨s1, hr, hr1, hl, ho, hn⟩ := Range_delete_effect arch s hs k1 hk
    have hlen := Len_eq s (WF_NonNil arch s hwf)
    have hlen1 := Len_eq s1 (WF_NonNil arch s1 (Reachable_WF arch s1 hr1))
    refine ⟨s1, hr, hl, fun k2 v2 hne h2 => by rw [ho k2 hne]; exact h2,
      s1.keys.length, hn.symm, rfl, by rw [hlen, ← hn], hlen1, ?_⟩
    intro hlt
    rw [hlen, hlen1, ← hn, Nat.mod_eq_of_lt hlt, Nat.mod_eq_of_lt (by omega)]
    exact ⟨rfl, rfl⟩
  · intro k2 v1 v2 h2 hne
    obtain ⟨s2, hst, hr2, hm, hlen2, hl2⟩ := storeAll_pair arch k1 k2 v1 v2
      (WF_supported arch s hwf k1 hk) h2 hne
    obtain ⟨s3, hr, hr3, hl, ho, hn⟩ := Range_delete_effect arch s2 hr2 k1 hm
    refine ⟨s2, s3, hst, hr, hl, by rw [ho k2 hne]; exact hl2, ?_⟩
    rw [Len_eq s3 (WF_NonNil arch s3 (Reachable_WF arch s3 hr3))]
    have : s3.keys.length = 1 := by omega
    rw [this]
    rfl

/-- Instance of C10 on the map of `TestRange`: "key1" is deleted during `Range`,
"key2" stays, `Len()` is 1. -/
theorem range_with_delete_visitor_witness :
    Reachable .bits64 twoKeys ∧ Key.string (utf8 "key1") ∈ twoKeys.keys ∧
    ∃ s1, twoKeys.Range (deleteVisitor .bits64 (.string (utf8 "key1"))) () = .ok (s1, ()) ∧
      s1.Load .bits64 (.string (utf8 "key1")) = .ok none ∧
      (∀ k2 v2, k2 ≠ Key.string (utf8 "key1") → twoKeys.Load .bits64 k2 = .ok (some v2) →
        s1.Load .bits64 k2 = .ok (some v2)) ∧
      ∃ n, twoKeys.keys.length = n + 1 ∧ s1.keys.length = n ∧
        twoKeys.Len = .ok ((n + 1) % 2 ^ 32) ∧ s1.Len = .ok (n % 2 ^ 32) ∧
        (n + 1 < 2 ^ 32 → twoKeys.Len = .ok (n + 1) ∧ s1.Len = .ok n) :=
  ⟨Reachable_twoKeys, by decide,
    (range_with_delete_visitor .bits64 twoKeys Reachable_twoKeys (.string (utf8 "key1"))
      (by decide)).1⟩

end ShardMap

end Shardmap

namespace Shardmap

namespace ShardMap

variable {V : Type}

/-! ## One shard, one key -/

theorem length_Store (arch : Arch) (s s1 : ShardMap V) (k : Key) (v : V)
    (h : s.Store arch k v = .ok s1) : s1.shards.length = s.shards.length := by
  simp only [Store] at h
  cases hg : s.getShard arch k with
  | error e => rw [hg] at h; cases h
  | ok r =>
    obtain ⟨index, shard⟩ := r
    rw [hg] at h
    cases shard with
    | none => cases h
    | some c =>
      have := Except.ok.inj h
      rw [← this]
      exact List.length_set _ _ _

theorem length_Delete (arch : Arch) (s s1 : ShardMap V) (k : Key)
    (h : s.Delete arch k = .ok s1) : s1.shards.length = s.shards.length := by
  simp only [Delete] at h
  cases hg : s.getShard arch k with
  | error e => rw [hg] at h; cases h
  | ok r =>
    obtain ⟨index, shard⟩ := r
    rw [hg] at h
    cases shard with
    | none => cases h
    | some c =>
      have := Except.ok.inj h
      rw [← this]
      exact List.length_set _ _ _

end ShardMap

end Shardmap

namespace Shardmap

namespace ShardMap

variable {V : Type}

/-! ## Properties kept by the traversals -/

theorem visitKeys_invariant {σ : Type} (P : ShardMap V × σ → Prop) (i : Nat) (f : Visitor V σ)
    (hf : ∀ key value w w1, P w → f key value w = .ok w1 → P w1) :
    ∀ (ks : List Key) (w w1 : ShardMap V × σ), P w → visitKeys i f ks w = .ok w1 → P w1
  | [], w, w1, hw, h => by
    rw [← Except.ok.inj h]; exact hw
  | key :: rest, w, w1, hw, h => by
    rw [visitKeys] at h
    split at h
    · split at h
      · rename_i value _
        cases hfk : f key value w with
        | error e => rw [hfk] at h; cases h
        | ok w2 =>
          rw [hfk] at h
          exact visitKeys_invariant P i f hf rest w2 w1 (hf key value w w2 hw hfk) h
      · exact visitKeys_invariant P i f hf rest w w1 hw h
    · cases h

theorem rangeShard_invariant {σ : Type} (P : ShardMap V × σ → Prop) (i : Nat) (f : Visitor V σ)
    (hf : ∀ key value w w1, P w → f key value w = .ok w1 → P w1)
    (w w1 : ShardMap V × σ) (hw : P w) (h : rangeShard i f w = .ok w1) : P w1 := by
  rw [rangeShard] at h
  split at h
  · exact visitKeys_invariant P i f hf _ w w1 hw h
  · cases h
  · cases h

theorem fanOut_invariant {W : Type} (P : W → Prop) (task : Nat → W → Except Fault W)
    (ht : ∀ i w w1, P w → task i w = .ok w1 → P w1) :
    ∀ (l : List Nat) (w w1 : W), P w → fanOut task l w = .ok w1 → P w1
  | [], w, w1, hw, h => by
    rw [← Except.ok.inj h]; exact hw
  | i :: l, w, w1, hw, h => by
    rw [fanOut] at h
    cases hti : task i w with
    | error e => rw [hti] at h; cases h
    | ok w2 =>
      rw [hti] at h
      exact fanOut_invariant P task ht l w2 w1 (ht i w w2 hw hti) h

theorem Range_invariant {σ : Type} (P : ShardMap V × σ → Prop) (f : Visitor V σ)
    (hf : ∀ key value w w1, P w → f key value w = .ok w1 → P w1)
    (s : ShardMap V) (st : σ) (w1 : ShardMap V × σ) (hs : P (s, st))
    (h : s.Range f st = .ok w1) : P w1 :=
  fanOut_invariant P _ (fun i w w2 hw hr => rangeShard_invariant P i f hf w w2 hw hr)
    _ (s, st) w1 hs h

theorem length_deleteIn (i : Nat) (key : Key) (s s1 : ShardMap V)
    (h : deleteIn i key s = .ok s1) : s1.shards.length = s.shards.length := by
  rw [deleteIn] at h
  split at h
  · rw [← Except.ok.inj h]
    exact List.length_set _ _ _
  · cases h

theorem length_Clear (s s1 : ShardMap V) (h : s.Clear = .ok s1) :
    s1.shards.length = s.shards.length := by
  rw [Clear] at h
  cases hf : fanOut
      (fun index => rangeShard index (fun key _ w => do
        let s1 ← deleteIn index key w.1
        pure (s1, w.2)))
      (List.range s.shards.length) (s, ()) with
  | error e => rw [hf] at h; cases h
  | ok w =>
    rw [hf] at h
    rw [← Except.ok.inj h]
    refine fanOut_invariant (fun w : ShardMap V × Unit => w.1.shards.length = s.shards.length)
      _ ?_ _ (s, ()) w rfl hf
    intro i w0 w2 hw hr
    refine rangeShard_invariant
      (fun w : ShardMap V × Unit => w.1.shards.length = s.shards.length) i _ ?_ w0 w2 hw hr
    intro key value w3 w4 hw3 hd
    cases hdel : deleteIn i key w3.1 with
    | error e => rw [hdel] at hd; cases hd
    | ok s2 =>
      rw [hdel] at hd
      rw [← Except.ok.inj hd]
      exact (length_deleteIn i key w3.1 s2 hdel).trans hw3

theorem length_Range {σ : Type} (f : Visitor V σ)
    (hf : ∀ key value (w w1 : ShardMap V × σ), f key value w = .ok w1 →
      w1.1.shards.length = w.1.shards.length)
    (s s1 : ShardMap V) (st st1 : σ) (h : s.Range f st = .ok (s1, st1)) :
    s1.shards.length = s.shards.length :=
  Range_invariant (fun w : ShardMap V × σ => w.1.shards.length = s.shards.length) f
    (fun key value w w1 hw hfw => (hf key value w w1 hfw).trans hw) s st (s1, st1) rfl h

theorem Reachable_runOps (arch : Arch) :
    ∀ (ops : List (Op V)) (s s1 : ShardMap V), Reachable arch s →
      runOps arch ops s = .ok s1 → Reachable arch s1
  | [], s, s1, hs, h => by
    rw [← Except.ok.inj h]; exact hs
  | op :: rest, s, s1, hs, h => by
    rw [runOps] at h
    cases hop : op.run arch s with
    | error e => rw [hop] at h; cases h
    | ok s2 =>
      rw [hop] at h
      refine Reachable_runOps arch rest s2 s1 ?_ h
      cases op with
      | store key value => exact Reachable.store key value hs hop
      | delete key => exact Reachable.delete key hs hop
      | clear => exact Reachable.clear hs hop

theorem Reachable_Range_opVisitor (arch : Arch) (prog : Key → V → ShardMap V → List (Op V))
    (s s1 : ShardMap V) (hs : Reachable arch s)
    (h : s.Range (opVisitor arch prog) () = .ok (s1, ())) : Reachable arch s1 := by
  refine Range_invariant (fun w : ShardMap V × Unit => Reachable arch w.1) _ ?_ s () (s1, ())
    hs h
  intro key value w w1 hw hv
  rw [opVisitor] at hv
  cases hr : runOps arch (prog key value w.1) w.1 with
  | error e => rw [hr] at hv; cases hv
  | ok s2 =>
    rw [hr] at hv
    rw [← Except.ok.inj hv]
    exact Reachable_runOps arch _ w.1 s2 hw hr

theorem ReachableR_Reachable (arch : Arch) (s : ShardMap V) (h : ReachableR arch s) :
    Reachable arch s := by
  induction h with
  | new => exact Reachable.new
  | store key value _ hst ih => exact Reachable.store key value ih hst
  | delete key _ hd ih => exact Reachable.delete key ih hd
  | clear _ hc ih => exact Reachable.clear ih hc
  | range prog _ hr ih => exact Reachable_Range_opVisitor arch prog _ _ ih hr

theorem ReachableR_WF (arch : Arch) (s : ShardMap V) (h : ReachableR arch s) : WF arch s :=
  Reachable_WF arch s (ReachableR_Reachable arch s h)

end ShardMap

end Shardmap

namespace Shardmap

theorem shardIndex_eq_mod (arch : Arch) (k : Key) (i : Nat) (h : shardIndex arch k = .ok i) :
    ∃ hash, fnv1a32 arch k = .ok hash ∧ hash < 2 ^ 32 ∧ i = hash % ShardCount := by
  obtain ⟨str, hstr⟩ := strKey_ok_of_supported arch k (supported_of_shardIndex arch k i h)
  refine ⟨hashString str, by simp only [fnv1a32, hstr]; rfl, ?_, ?_⟩
  · rw [hashString_eq_referenceHash]; exact referenceHash_lt str
  · rw [shardIndex_of_strKey arch k str hstr] at h
    rw [← Except.ok.inj h, toUint_of_lt arch _
      (by rw [hashString_eq_referenceHash]; exact referenceHash_lt str)]
    rfl

namespace ShardMap

variable {V : Type}

theorem Reachable_ReachableR (arch : Arch) (s : ShardMap V) (h : Reachable arch s) :
    ReachableR arch s := by
  induction h with
  | new => exact ReachableR.new
  | store key value _ hst ih => exact ReachableR.store key value ih hst
  | delete key _ hd ih => exact ReachableR.delete key ih hd
  | clear _ hc ih => exact ReachableR.clear ih hc

theorem ReachableR_twoKeys : ReachableR .bits64 twoKeys :=
  Reachable_ReachableR .bits64 twoKeys Reachable_twoKeys

/-! ## Idempotence, construction, placement, frame and routing -/

/-- C13. Delete is idempotent: in every reachable state and for every key of
a supported type, `Delete(k)` of an absent key returns and leaves the map unchanged,
and a second `Delete(k)` right after a first one returns the state the first one
produced. -/
theorem delete_is_idempotent (arch : Arch) (s : ShardMap V) (hs : Reachable arch s) (k : Key)
    (hk : k.Supported) :
    (k ∉ s.keys → s.Delete arch k = .ok s) ∧
    ∃ s1, s.Delete arch k = .ok s1 ∧ s1.Delete arch k = .ok s1 := by
  have hwf := Reachable_WF arch s hs
  refine ⟨Delete_of_not_mem arch s hwf k hk, ?_⟩
  obtain ⟨s1, hd, hl⟩ := Load_Delete_same arch s hwf k hk
  have hwf1 := WF_Delete arch s s1 k hwf hd
  exact ⟨s1, hd, Delete_of_not_mem arch s1 hwf1 k hk
    ((Load_none_iff_not_mem arch s1 hwf1 k hk).1 hl)⟩

/-- Instance of C13 on the map of the tests, for the present key "key1" and
the absent key "key3". -/
theorem delete_is_idempotent_witness :
    Reachable .bits64 twoKeys ∧ (Key.string (utf8 "key3")).Supported ∧
    (Key.string (utf8 "key3") ∉ twoKeys.keys →
      twoKeys.Delete .bits64 (.string (utf8 "key3")) = .ok twoKeys) ∧
    ∃ s1, twoKeys.Delete .bits64 (.string (utf8 "key1")) = .ok s1 ∧
      s1.Delete .bits64 (.string (utf8 "key1")) = .ok s1 :=
  ⟨Reachable_twoKeys, by decide,
    (delete_is_idempotent .bits64 twoKeys Reachable_twoKeys (.string (utf8 "key3"))
      (by decide)).1,
    (delete_is_idempotent .bits64 twoKeys Reachable_twoKeys (.string (utf8 "key1"))
      (by decide)).2⟩

/-- C14. Construction and fixed shard count: `New()` returns a map with exactly
`ShardCount = 32` shards, none nil and all empty, so that `Len()` is 0 and `Load` of
every key of a supported type reports `found = false`; `Store`, `Delete` and `Clear`
return a map with as many shards as before, `Range` does so whenever the calls of
its visitor do, and every state reachable from `New()` has 32 shards. (`Load` and
`Len` return no map: they are functions of the state.) -/
theorem new_and_fixed_shard_count (arch : Arch) :
    ShardCount = 32 ∧ (New : ShardMap V).shards.length = ShardCount ∧
    (∀ i, i < ShardCount → (New : ShardMap V).shards[i]? = some (some SyncMap.empty)) ∧
    (New : ShardMap V).keys = [] ∧
    (New : ShardMap V).Len = .ok 0 ∧
    (∀ k : Key, k.Supported → (New : ShardMap V).Load arch k = .ok none) ∧
    (∀ (s s1 : ShardMap V) (k : Key) (v : V), s.Store arch k v = .ok s1 →
      s1.shards.length = s.shards.length) ∧
    (∀ (s s1 : ShardMap V) (k : Key), s.Delete arch k = .ok s1 →
      s1.shards.length = s.shards.length) ∧
    (∀ s s1 : ShardMap V, s.Clear = .ok s1 → s1.shards.length = s.shards.length) ∧
    (∀ (σ : Type) (f : Visitor V σ) (s s1 : ShardMap V) (st st1 : σ),
      (∀ key value (w w1 : ShardMap V × σ), f key value w = .ok w1 →
        w1.1.shards.length = w.1.shards.length) →
      s.Range f st = .ok (s1, st1) → s1.shards.length = s.shards.length) ∧
    (∀ s : ShardMap V, ReachableR arch s → s.shards.length = ShardCount) := by
  refine ⟨rfl, (WF_New arch).1, ?_, keys_New, ?_, ?_, length_Store arch, length_Delete arch,
    length_Clear, ?_, fun s hs => (ReachableR_WF arch s hs).1⟩
  · intro i hi
    rw [New_eq, List.getElem?_replicate, if_pos hi]
  · rw [Len_eq New (WF_NonNil arch _ (WF_New arch)), keys_New]
    rfl
  · intro k hk
    rw [Load_none_iff_not_mem arch New (WF_New arch) k hk, keys_New]
    exact List.not_mem_nil _
  · intro σ f s s1 st st1 hf h
    exact length_Range f hf s s1 st st1 h

/-- Instance of C14: storing into the map of the tests keeps the 32 shards. -/
theorem new_and_fixed_shard_count_witness :
    (New : ShardMap String).shards.length = 32 ∧
    twoKeys.Store .bits64 (.int 7) "seven" = .ok (orNew (twoKeys.Store .bits64 (.int 7) "seven")) ∧
    (orNew (twoKeys.Store .bits64 (.int 7) "seven")).shards.length = twoKeys.shards.length :=
  ⟨(new_and_fixed_shard_count (V := String) .bits64).2.1, by decide,
    (new_and_fixed_shard_count (V := String) .bits64).2.2.2.2.2.2.1 twoKeys _ (.int 7) "seven"
      (by decide)⟩

/-- C16. Placement invariant: in every state reachable from `New()` by `Store`,
`Delete`, `Clear` and `Range`, every key held in the shard at index `i` satisfies
`fnv1a32(key) mod 32 = i`, the index `getShard` computes for it; hence a present key
is in exactly one shard, once, and the index chosen for a key is the same in every
state of the map. -/
theorem placement_invariant (arch : Arch) (s : ShardMap V) (hs : ReachableR arch s) :
    (∀ (i : Nat) (c : SyncMap V) (k : Key), s.shards[i]? = some (some c) → k ∈ c.keys →
      shardIndex arch k = .ok i ∧
      ∃ hash, fnv1a32 arch k = .ok hash ∧ hash % ShardCount = i) ∧
    (∀ k ∈ s.keys, ∃ i : Nat, (∃ c : SyncMap V, s.shards[i]? = some (some c) ∧ k ∈ c.keys) ∧
      ∀ j : Nat, (∃ c : SyncMap V, s.shards[j]? = some (some c) ∧ k ∈ c.keys) → j = i) ∧
    s.keys.Nodup ∧
    ∀ (s2 : ShardMap V) (k : Key), ReachableR arch s2 → k.Supported →
      ∃ i, shardIndex arch k = .ok i ∧
        (s.getShard arch k).map Prod.fst = .ok i ∧ (s2.getShard arch k).map Prod.fst = .ok i := by
  have hwf := ReachableR_WF arch s hs
  have hplace : ∀ (i : Nat) (c : SyncMap V) (k : Key), s.shards[i]? = some (some c) →
      k ∈ c.keys → shardIndex arch k = .ok i := by
    intro i c k hc hk
    have hi : i < ShardCount := by rw [← hwf.1]; exact getElem?_lt _ _ _ hc
    obtain ⟨d, hd, _, hdk⟩ := hwf.2 i hi
    rw [hc] at hd
    rw [← Option.some.inj (Option.some.inj hd)] at hdk
    exact hdk k hk
  refine ⟨?_, ?_, WF_keys_nodup arch s hwf, ?_⟩
  · intro i c k hc hk
    have h1 := hplace i c k hc hk
    obtain ⟨hash, hf, _, hm⟩ := shardIndex_eq_mod arch k i h1
    exact ⟨h1, hash, hf, hm.symm⟩
  · intro k hk
    obtain ⟨i, c, hc, hkc⟩ := (mem_keys_iff s k).1 hk
    refine ⟨i, ⟨c, hc, hkc⟩, ?_⟩
    rintro j ⟨d, hd, hkd⟩
    have h1 := hplace i c k hc hkc
    have h2 := hplace j d k hd hkd
    rw [h1] at h2
    exact (Except.ok.inj h2).symm
  · intro s2 k hs2 hk
    have hwf2 := ReachableR_WF arch s2 hs2
    obtain ⟨i, c, hi, _, hc, _, _⟩ := WF_lookup arch s hwf k hk
    obtain ⟨j, d, hj, _, hd, _, _⟩ := WF_lookup arch s2 hwf2 k hk
    rw [hi] at hj
    rw [← Except.ok.inj hj] at hd
    refine ⟨i, hi, ?_, ?_⟩
    · rw [getShard_eq arch s k i _ hi hc]; rfl
    · rw [getShard_eq arch s2 k i _ hi hd]; rfl

/-- Instance of C16 on the map of the tests. -/
theorem placement_invariant_witness :
    ReachableR .bits64 twoKeys ∧ twoKeys.keys.Nodup ∧
    ∀ (i : Nat) (c : SyncMap String) (k : Key), twoKeys.shards[i]? = some (some c) →
      k ∈ c.keys → shardIndex .bits64 k = .ok i ∧
      ∃ hash, fnv1a32 .bits64 k = .ok hash ∧ hash % ShardCount = i :=
  ⟨ReachableR_twoKeys, (placement_invariant .bits64 twoKeys ReachableR_twoKeys).2.2.1,
    (placement_invariant .bits64 twoKeys ReachableR_twoKeys).1⟩

end ShardMap

end Shardmap

namespace Shardmap

namespace ShardMap

variable {V : Type}

theorem no_routing_fault (arch : Arch) (s : ShardMap V) (hs : WF arch s) (k : Key) (v : V) :
    (∀ r, s.getShard arch k ≠ .ok (r, none)) ∧
    s.getShard arch k ≠ .error Fault.indexOutOfRange ∧
    (∀ e, s.Load arch k = .error e → e = Fault.unsupportedKeyType) ∧
    (∀ e, s.Store arch k v = .error e → e = Fault.unsupportedKeyType) ∧
    (∀ e, s.Delete arch k = .error e → e = Fault.unsupportedKeyType) := by
  by_cases hk : k.Supported
  · obtain ⟨i, c, hi, _, hc, _, _⟩ := WF_lookup arch s hs k hk
    rw [getShard_eq arch s k i _ hi hc, Load_eq arch s k i c hi hc,
      Store_eq arch s k v i c hi hc, Delete_eq arch s k i c hi hc]
    refine ⟨?_, ?_, ?_, ?_, ?_⟩
    · intro r h
      have := Except.ok.inj h
      cases this
    · intro h; cases h
    · intro e h; cases h
    · intro e h; cases h
    · intro e h; cases h
  · rw [getShard_unsupported arch s k hk, Load_unsupported arch s k hk,
      Store_unsupported arch s k v hk, Delete_unsupported arch s k hk]
    refine ⟨?_, ?_, ?_, ?_, ?_⟩
    · intro r h; cases h
    · intro h; cases h
    · intro e h; exact (Except.error.inj h).symm
    · intro e h; exact (Except.error.inj h).symm
    · intro e h; exact (Except.error.inj h).symm

/-- C17. Single-key operations touch one shard and one key: in every reachable
state and for every key `k` of a supported type, with `i = fnv1a32(k) mod 32`,
`Store(k, v)` and `Delete(k)` return a map whose shards other than the one at `i`
are unchanged, and `Load(k2)` of every key `k2` different from `k` returns after
`Store(k, v)` and after `Delete(k)` what it returned before. (`Load` returns no map:
it is a function of the state, which it leaves as it is.) -/
theorem single_key_frame (arch : Arch) (s : ShardMap V) (hs : Reachable arch s) (k : Key)
    (hk : k.Supported) (v : V) :
    ∃ (i : Nat) (s1 s2 : ShardMap V),
      shardIndex arch k = .ok i ∧ (∃ hash, fnv1a32 arch k = .ok hash ∧ i = hash % ShardCount) ∧
      s.Store arch k v = .ok s1 ∧ s.Delete arch k = .ok s2 ∧
      (∀ j : Nat, j ≠ i → s1.shards[j]? = s.shards[j]? ∧ s2.shards[j]? = s.shards[j]?) ∧
      (∀ k2 : Key, k2 ≠ k →
        s1.Load arch k2 = s.Load arch k2 ∧ s2.Load arch k2 = s.Load arch k2) := by
  have hwf := Reachable_WF arch s hs
  obtain ⟨i, c, hi, _, hc, _, _⟩ := WF_lookup arch s hwf k hk
  obtain ⟨hash, hf, _, hm⟩ := shardIndex_eq_mod arch k i hi
  have hst := Store_eq arch s k v i c hi hc
  have hd := Delete_eq arch s k i c hi hc
  refine ⟨i, _, _, hi, ⟨hash, hf, hm⟩, hst, hd, ?_, ?_⟩
  · intro j hj
    have hij : ¬ i = j := fun h => hj h.symm
    constructor <;> simp [List.getElem?_set, hij]
  · intro k2 hne
    exact ⟨Load_Store_other arch s _ hwf k k2 v hne hst,
      Load_Delete_other arch s _ hwf k k2 hne hd⟩

/-- Instance of C17 on the map of the tests, for the key "key1". -/
theorem single_key_frame_witness :
    Reachable .bits64 twoKeys ∧ (Key.string (utf8 "key1")).Supported ∧
    ∃ (i : Nat) (s1 s2 : ShardMap String),
      shardIndex .bits64 (.string (utf8 "key1")) = .ok i ∧
      (∃ hash, fnv1a32 .bits64 (.string (utf8 "key1")) = .ok hash ∧ i = hash % ShardCount) ∧
      twoKeys.Store .bits64 (.string (utf8 "key1")) "v" = .ok s1 ∧
      twoKeys.Delete .bits64 (.string (utf8 "key1")) = .ok s2 ∧
      (∀ j : Nat, j ≠ i →
        s1.shards[j]? = twoKeys.shards[j]? ∧ s2.shards[j]? = twoKeys.shards[j]?) ∧
      (∀ k2 : Key, k2 ≠ Key.string (utf8 "key1") →
        s1.Load .bits64 k2 = twoKeys.Load .bits64 k2 ∧
        s2.Load .bits64 k2 = twoKeys.Load .bits64 k2) :=
  ⟨Reachable_twoKeys, by decide,
    single_key_frame .bits64 twoKeys Reachable_twoKeys (.string (utf8 "key1")) (by decide) "v"⟩

/-- C20. Routing never indexes out of bounds: in every state produced by `New()`
and the operations of the map, for every key of a supported type, the index
`uint(fnv1a32(key)) % 32` computed by `getShard` is below the length 32 of the
`shards` slice and the pointer found there is not nil; so, for every key, `getShard`
never panics with an index out of range, never returns nil, and the only panic of
`Load`, `Store` and `Delete` is the one of `fnv1a32`. -/
theorem routing_in_bounds (arch : Arch) (s : ShardMap V) (hs : ReachableR arch s) (k : Key)
    (v : V) :
    (k.Supported → ∃ (i : Nat) (c : SyncMap V), shardIndex arch k = .ok i ∧
      (∃ hash, fnv1a32 arch k = .ok hash ∧ i = toUint arch hash % toUint arch ShardCount) ∧
      i < s.shards.length ∧ s.shards.length = 32 ∧ s.shards[i]? = some (some c) ∧
      s.getShard arch k = .ok (i, some c)) ∧
    (∀ r, s.getShard arch k ≠ .ok (r, none)) ∧
    s.getShard arch k ≠ .error Fault.indexOutOfRange ∧
    (∀ e, s.Load arch k = .error e → e = Fault.unsupportedKeyType) ∧
    (∀ e, s.Store arch k v = .error e → e = Fault.unsupportedKeyType) ∧
    (∀ e, s.Delete arch k = .error e → e = Fault.unsupportedKeyType) := by
  have hwf := ReachableR_WF arch s hs
  refine ⟨?_, no_routing_fault arch s hwf k v⟩
  intro hk
  obtain ⟨i, c, hi, hlt, hc, _, _⟩ := WF_lookup arch s hwf k hk
  obtain ⟨hash, hf, hb, hm⟩ := shardIndex_eq_mod arch k i hi
  refine ⟨i, c, hi, ⟨hash, hf, ?_⟩, by rw [hwf.1]; exact hlt, hwf.1, hc,
    getShard_eq arch s k i _ hi hc⟩
  rw [toUint_of_lt arch hash hb, toUint_ShardCount]
  exact hm

/-- Instance of C20 on the map of the tests, for the `int` key 42. -/
theorem routing_in_bounds_witness :
    ReachableR .bits64 twoKeys ∧ (Key.int 42).Supported ∧
    ∃ (i : Nat) (c : SyncMap String), shardIndex .bits64 (.int 42) = .ok i ∧
      (∃ hash, fnv1a32 .bits64 (.int 42) = .ok hash ∧
        i = toUint .bits64 hash % toUint .bits64 ShardCount) ∧
      i < twoKeys.shards.length ∧ twoKeys.shards.length = 32 ∧
      twoKeys.shards[i]? = some (some c) ∧
      twoKeys.getShard .bits64 (.int 42) = .ok (i, some c) :=
  ⟨ReachableR_twoKeys, by decide,
    (routing_in_bounds .bits64 twoKeys ReachableR_twoKeys (.int 42) "v").1 (by decide)⟩

end ShardMap

end Shardmap

namespace Shardmap

namespace SyncMap

variable {V : Type}

theorem Load_of_mem_entries (c : SyncMap V) (hn : c.keys.Nodup) (e : Key × V)
    (he : e ∈ c.entries) : c.Load e.1 = some e.2 := by
  cases c with
  | mk es =>
    simp only [Load, keys] at *
    induction es with
    | nil => cases he
    | cons a es ih =>
      rw [List.map_cons, List.nodup_cons] at hn
      by_cases ha : a.1 = e.1
      · rw [List.find?_cons_of_pos _ (by simpa using ha)]
        rcases List.mem_cons.1 he with h | h
        · rw [h]; rfl
        · exact absurd (ha ▸ List.mem_map_of_mem Prod.fst h) hn.1
      · rw [List.find?_cons_of_neg _ (by simpa using ha)]
        rcases List.mem_cons.1 he with h | h
        · exact absurd (by rw [h]) ha
        · exact ih hn.2 h

theorem mem_entries_of_Load (c : SyncMap V) (k : Key) (v : V) (h : c.Load k = some v) :
    (k, v) ∈ c.entries := by
  simp only [Load, Option.map_eq_some'] at h
  obtain ⟨e, he, hv⟩ := h
  have h1 := List.find?_some he
  have h2 := List.mem_of_find?_eq_some he
  simp only [decide_eq_true_eq] at h1
  have : e = (k, v) := Prod.ext h1 hv
  rw [← this]
  exact h2

end SyncMap

namespace ShardMap

variable {V : Type}

/-! ## Range with a visitor that leaves the map alone -/

theorem visitKeys_readOnly {σ : Type} (g : Key → V → σ → σ) (s : ShardMap V) (i : Nat)
    (c : SyncMap V) (hc : s.shards[i]? = some (some c)) :
    ∀ (es : List (Key × V)) (st : σ), (∀ e ∈ es, c.Load e.1 = some e.2) →
      visitKeys i (readOnlyVisitor g) (es.map Prod.fst) (s, st)
        = .ok (s, es.foldl (fun acc e => g e.1 e.2 acc) st)
  | [], st, _ => rfl
  | e :: es, st, h => by
    have hv := h e (List.mem_cons_self _ _)
    simp only [List.map_cons, visitKeys, hc, hv]
    exact visitKeys_readOnly g s i c hc es (g e.1 e.2 st)
      (fun x hx => h x (List.mem_cons_of_mem _ hx))

theorem rangeShard_readOnly {σ : Type} (g : Key → V → σ → σ) (s : ShardMap V) (i : Nat)
    (c : SyncMap V) (hc : s.shards[i]? = some (some c)) (hn : c.keys.Nodup) (st : σ) :
    rangeShard i (readOnlyVisitor g) (s, st)
      = .ok (s, (shardEntries (s.shards[i]?.getD none)).foldl (fun acc e => g e.1 e.2 acc) st) := by
  simp only [rangeShard, hc, Option.getD_some, shardEntries]
  exact visitKeys_readOnly g s i c hc c.entries st
    (fun e he => SyncMap.Load_of_mem_entries c hn e he)

theorem fanOut_readOnly {σ : Type} (arch : Arch) (g : Key → V → σ → σ) (s : ShardMap V)
    (hs : WF arch s) :
    ∀ (l : List Nat) (st : σ), (∀ i ∈ l, i < ShardCount) →
      fanOut (fun index => rangeShard index (readOnlyVisitor g)) l (s, st)
        = .ok (s, (l.flatMap (fun i => shardEntries (s.shards[i]?.getD none))).foldl
            (fun acc e => g e.1 e.2 acc) st)
  | [], st, _ => rfl
  | i :: l, st, h => by
    obtain ⟨c, hc, hn, _⟩ := hs.2 i (h i (List.mem_cons_self _ _))
    simp only [fanOut]
    rw [rangeShard_readOnly g s i c hc hn st]
    rw [List.flatMap_cons, List.foldl_append]
    exact fanOut_readOnly arch g s hs l _ (fun j hj => h j (List.mem_cons_of_mem _ hj))

theorem flatMap_range_shards (s : ShardMap V) :
    (List.range s.shards.length).flatMap (fun i => shardEntries (s.shards[i]?.getD none))
      = s.entries := by
  have h : (List.range s.shards.length).map (fun i => shardEntries (s.shards[i]?.getD none))
      = s.shards.map shardEntries := by
    apply List.ext_getElem
    · simp
    · intro j h1 h2
      simp only [List.length_map, List.length_range] at h1
      simp [List.getElem?_eq_getElem h1]
  rw [List.flatMap_def, h, entries, List.flatMap_def]

theorem Range_readOnly {σ : Type} (arch : Arch) (g : Key → V → σ → σ) (s : ShardMap V)
    (hs : WF arch s) (st : σ) :
    s.Range (readOnlyVisitor g) st
      = .ok (s, s.entries.foldl (fun acc e => g e.1 e.2 acc) st) := by
  rw [Range, fanOut_readOnly arch g s hs _ st
    (fun i hi => by rw [← hs.1]; exact List.mem_range.1 hi), flatMap_range_shards]

theorem map_fst_entries (s : ShardMap V) : s.entries.map Prod.fst = s.keys := by
  rw [entries, keys, List.map_flatMap]
  congr 1
  funext p
  cases p <;> rfl

theorem mem_entries_iff (s : ShardMap V) (e : Key × V) :
    e ∈ s.entries ↔
      ∃ (j : Nat) (c : SyncMap V), s.shards[j]? = some (some c) ∧ e ∈ c.entries := by
  rw [entries, List.mem_flatMap]
  constructor
  · rintro ⟨p, hp, he⟩
    obtain ⟨j, hj⟩ := List.getElem?_of_mem hp
    cases p with
    | none => simp [shardEntries] at he
    | some c => exact ⟨j, c, hj, he⟩
  · rintro ⟨j, c, hj, he⟩
    exact ⟨some c, List.getElem?_mem hj, he⟩

theorem mem_entries_iff_Load (arch : Arch) (s : ShardMap V) (hs : WF arch s) (k : Key)
    (v : V) : (k, v) ∈ s.entries ↔ s.Load arch k = .ok (some v) := by
  constructor
  · intro he
    obtain ⟨j, c, hc, hec⟩ := (mem_entries_iff s (k, v)).1 he
    have hj : j < ShardCount := by rw [← hs.1]; exact getElem?_lt _ _ _ hc
    obtain ⟨d, hd, hn, hdk⟩ := hs.2 j hj
    rw [hc] at hd
    rw [← Option.some.inj (Option.some.inj hd)] at hn hdk
    have hkc : k ∈ c.keys := List.mem_map_of_mem Prod.fst hec
    rw [Load_eq arch s k j c (hdk k hkc) hc]
    exact congrArg Except.ok (SyncMap.Load_of_mem_entries c hn (k, v) hec)
  · intro hl
    by_cases hk : k.Supported
    · obtain ⟨i, c, hi, _, hc, _, _⟩ := WF_lookup arch s hs k hk
      rw [Load_eq arch s k i c hi hc] at hl
      exact (mem_entries_iff s (k, v)).2
        ⟨i, c, hc, SyncMap.mem_entries_of_Load c k v (Except.ok.inj hl)⟩
    · rw [Load_unsupported arch s k hk] at hl; cases hl

theorem foldl_log (es : List (Key × V)) :
    ∀ log : List (Key × V),
      es.foldl (fun acc e => acc ++ [(e.1, e.2)]) log = log ++ es := by
  induction es with
  | nil => intro log; simp
  | cons e es ih => intro log; rw [List.foldl_cons, ih]; simp

/-- C11. Range visits every entry exactly once: in every reachable state, `Range`
with a visitor that does not modify the map returns, leaves the map unchanged, and
has called the visitor on the entries of the map one after the other; the log
of the calls is the list of all entries, in which no pair and no key occurs twice,
and a pair `(k, v)` is in it exactly when `Load(k)` returns `(v, true)`. -/
theorem range_visits_each_entry_once (arch : Arch) (s : ShardMap V) (hs : Reachable arch s) :
    (∀ (σ : Type) (g : Key → V → σ → σ) (st : σ),
      s.Range (readOnlyVisitor g) st
        = .ok (s, s.entries.foldl (fun acc e => g e.1 e.2 acc) st)) ∧
    s.Range logVisitor [] = .ok (s, s.entries) ∧
    s.entries.Nodup ∧ (s.entries.map Prod.fst).Nodup ∧
    ∀ (k : Key) (v : V), (k, v) ∈ s.entries ↔ s.Load arch k = .ok (some v) := by
  have hwf := Reachable_WF arch s hs
  have hn : (s.entries.map Prod.fst).Nodup := by
    rw [map_fst_entries]; exact WF_keys_nodup arch s hwf
  refine ⟨fun σ g st => Range_readOnly arch g s hwf st, ?_, List.Nodup.of_map _ hn, hn,
    mem_entries_iff_Load arch s hwf⟩
  rw [logVisitor, Range_readOnly arch _ s hwf [], foldl_log, List.nil_append]

/-- Instance of C11 on the map of the tests: the visitor is called on
("key2", "value2") and on ("key1", "value1"), once each. -/
theorem range_visits_each_entry_once_witness :
    Reachable .bits64 twoKeys ∧
    twoKeys.Range logVisitor [] = .ok (twoKeys, twoKeys.entries) ∧
    twoKeys.entries
      = [(.string (utf8 "key2"), "value2"), (.string (utf8 "key1"), "value1")] :=
  ⟨Reachable_twoKeys, (range_visits_each_entry_once .bits64 twoKeys Reachable_twoKeys).2.1,
    by decide⟩

end ShardMap

end Shardmap

namespace Shardmap

/-! ## The name of the hash, and the spread of the keys -/

/-- C18 as stated fails: the string key "a" is of a supported type and is its own
canonical string, `fnv1a32` returns 84696446 for it on both targets, and the standard
32-bit FNV-1a hash of "a" is 3826002220; for "test_string" and for the `int` key 42
`fnv1a32` returns 2101758991 and 494316163, the values of `TestFnv1a32`, whereas
FNV-1a gives 2170742783 and 2279835011. -/
theorem fnv1a32_differs_from_fnv1a :
    (Key.string (utf8 "a")).Supported ∧
    strKey .bits64 (.string (utf8 "a")) = .ok (utf8 "a") ∧
    fnv1a32 .bits64 (.string (utf8 "a")) = .ok 84696446 ∧
    fnv1a32 .bits32 (.string (utf8 "a")) = .ok 84696446 ∧
    fnv1aStandard (utf8 "a") = 3826002220 ∧
    fnv1a32 .bits64 (.string (utf8 "a")) ≠ .ok (fnv1aStandard (utf8 "a")) ∧
    fnv1a32 .bits64 (.string (utf8 "test_string")) = .ok 2101758991 ∧
    fnv1aStandard (utf8 "test_string") = 2170742783 ∧
    strKey .bits64 (.int 42) = .ok (utf8 "42") ∧
    fnv1a32 .bits64 (.int 42) = .ok 494316163 ∧
    fnv1aStandard (utf8 "42") = 2279835011 := by
  decide

/-- C18, amended. `fnv1a32` calculates the FNV hash with the multiplication first:
for every key of a supported type, its result is the hash of the canonical string of
the key that starts from the offset basis 2166136261 and for each byte first
multiplies by the prime 16777619 modulo `2^32` and then XORs the byte into the hash.
It is the standard FNV-1a hash when the canonical string is empty. -/
theorem fnv1a32_multiplies_then_xors (arch : Arch) (k : Key) (hk : k.Supported) :
    ∃ s, strKey arch k = .ok s ∧
      fnv1a32 arch k
        = .ok (s.foldl (fun hash b => (hash * 16777619 % 2 ^ 32) ^^^ b.toNat) 2166136261) ∧
      (s = [] → fnv1a32 arch k = .ok (fnv1aStandard s)) := by
  obtain ⟨s, hs⟩ := strKey_ok_of_supported arch k hk
  have hf : fnv1a32 arch k = .ok (referenceHash s) := by
    simp only [fnv1a32, hs]
    rw [← hashString_eq_referenceHash]
    rfl
  refine ⟨s, hs, hf, ?_⟩
  intro he
  rw [hf, he]
  rfl

/-- Instance of C18 (amended) for the string key "a". -/
theorem fnv1a32_multiplies_then_xors_witness :
    (Key.string (utf8 "a")).Supported ∧
    ∃ s, strKey .bits64 (.string (utf8 "a")) = .ok s ∧
      fnv1a32 .bits64 (.string (utf8 "a"))
        = .ok (s.foldl (fun hash b => (hash * 16777619 % 2 ^ 32) ^^^ b.toNat) 2166136261) ∧
      (s = [] → fnv1a32 .bits64 (.string (utf8 "a")) = .ok (fnv1aStandard s)) :=
  ⟨by decide, fnv1a32_multiplies_then_xors .bits64 (.string (utf8 "a")) (by decide)⟩

namespace ShardMap

variable {V : Type}

theorem sampleKeys_spec (arch : Arch) :
    ∀ i, i < 32 → sampleKeys.getD i 0 < sampleCount ∧
      shardIndex arch (.int (sampleKeys.getD i 0 : Nat)) = .ok i ∧
      shardIndex arch (.string (FormatUint (sampleKeys.getD i 0))) = .ok i := by
  cases arch <;> decide

theorem sampleInts_stored (arch : Arch) :
    ∃ s : ShardMap Unit, storeAll arch sampleInts New = .ok s ∧ Reachable arch s ∧
      ∀ n : Nat, n < sampleCount → Key.int n ∈ s.keys := by
  have hr : (List.range sampleCount).Nodup := List.nodup_range sampleCount
  have hinj : Function.Injective (Prod.fst ∘ fun n : Nat => (Key.int n, ())) := by
    intro a b hab
    simpa using hab
  have hn : (sampleInts.map Prod.fst).Nodup := by
    rw [sampleInts, List.map_map]
    exact List.Nodup.map hinj hr
  obtain ⟨s, h1, h2, _, h4⟩ := storeAll_fresh arch sampleInts New Reachable.new hn
    (fun e he => by
      rw [sampleInts, List.mem_map] at he
      obtain ⟨n, _, rfl⟩ := he
      trivial)
    (fun e _ => by rw [keys_New]; exact List.not_mem_nil _)
  refine ⟨s, h1, h2, ?_⟩
  intro n hlt
  have hm : n ∈ List.range sampleCount := List.mem_range.2 hlt
  rw [h4]
  refine Or.inr ?_
  rw [sampleInts, List.map_map]
  exact List.mem_map_of_mem _ hm

/-- C19. Shard distribution: on both targets, for every shard index `i` below 32
there is an integer `n` below 10000 such that `getShard` sends the `int` key `n` and
the string key of its decimal digits to the shard at `i`, that is
`fnv1a32(n) mod 32 = i`; and after the `int` keys 0, ..., 9999 have been stored in a
new map no shard is empty. -/
theorem every_shard_receives_a_key (arch : Arch) :
    sampleCount = 10000 ∧
    (∀ i, i < ShardCount → ∃ n : Nat, n < sampleCount ∧ (Key.int n).Supported ∧
      shardIndex arch (.int n) = .ok i ∧
      (∃ hash, fnv1a32 arch (.int n) = .ok hash ∧ hash % ShardCount = i) ∧
      shardIndex arch (.string (FormatUint n)) = .ok i) ∧
    ∃ s : ShardMap Unit, storeAll arch sampleInts New = .ok s ∧
      ∀ i, i < ShardCount → 0 < shardSize s i := by
  have htable : ∀ i, i < ShardCount → ∃ n : Nat, n < sampleCount ∧
      shardIndex arch (.int n) = .ok i ∧ shardIndex arch (.string (FormatUint n)) = .ok i :=
    fun i hi => ⟨_, sampleKeys_spec arch i hi⟩
  refine ⟨rfl, ?_, ?_⟩
  · intro i hi
    obtain ⟨n, hn, h1, h2⟩ := htable i hi
    obtain ⟨hash, hf, _, hm⟩ := shardIndex_eq_mod arch _ i h1
    exact ⟨n, hn, trivial, h1, ⟨hash, hf, hm.symm⟩, h2⟩
  · obtain ⟨s, hst, hr, hmem⟩ := sampleInts_stored arch
    refine ⟨s, hst, ?_⟩
    intro i hi
    obtain ⟨n, hn, h1, _⟩ := htable i hi
    have hwf := Reachable_WF arch s hr
    obtain ⟨c, hc, _, _⟩ := hwf.2 i hi
    have hk : Key.int n ∈ c.keys := (WF_mem_keys_iff arch s hwf _ i c h1 hc).1 (hmem n hn)
    rw [shardSize, hc]
    exact List.length_pos_of_mem hk

/-- Instance of C19 for the last shard: the `int` key 15 goes to the shard at 31. -/
theorem every_shard_receives_a_key_witness :
    (31 < ShardCount) ∧ shardIndex .bits64 (.int 15) = .ok 31 ∧
    ∃ n : Nat, n < sampleCount ∧ (Key.int n).Supported ∧
      shardIndex .bits64 (.int n) = .ok 31 ∧
      (∃ hash, fnv1a32 .bits64 (.int n) = .ok hash ∧ hash % ShardCount = 31) ∧
      shardIndex .bits64 (.string (FormatUint n)) = .ok 31 :=
  ⟨by decide, by decide, (every_shard_receives_a_key .bits64).2.1 31 (by decide)⟩

/-! ## Store: insertion and overwriting -/

theorem almostFull_spec :
    Reachable .bits64 almostFullMap ∧ Key.uint64 0 ∉ almostFullMap.keys ∧
      almostFullMap.keys.length = 4294967295 := by
  obtain ⟨_, hr, hlen, hmem⟩ := manyKeys_spec
  have hwf := Reachable_WF .bits64 manyKeysMap hr
  obtain ⟨s1, hd, hl⟩ := Load_Delete_same .bits64 manyKeysMap hwf (.uint64 0) trivial
  have hs1 : almostFullMap = s1 := by rw [almostFullMap, hd]; rfl
  have hwf1 := WF_Delete .bits64 manyKeysMap s1 _ hwf hd
  have h1 := length_keys_Delete_of_mem .bits64 manyKeysMap s1 hwf _ hmem hd
  rw [hs1]
  refine ⟨Reachable.delete _ hr hd, (Load_none_iff_not_mem .bits64 s1 hwf1 (.uint64 0) trivial).1 hl, ?_⟩
  rw [hlen] at h1
  norm_num at h1
  omega

/-- C12 as stated fails on the count: the map that holds the `2^32 - 1` keys
`uint64(1)`, ..., `uint64(2^32 - 1)` is reachable, `uint64(0)` is absent from it and
`Len()` is 4294967295; after `Store(uint64(0), v)` `Len()` is 0, not one more. -/
theorem len_after_store_wraps :
    Reachable .bits64 almostFullMap ∧ Key.uint64 0 ∉ almostFullMap.keys ∧
    almostFullMap.Len = .ok 4294967295 ∧
    almostFullMap.Store .bits64 (.uint64 0) ()
      = .ok (orNew (almostFullMap.Store .bits64 (.uint64 0) ())) ∧
    (orNew (almostFullMap.Store .bits64 (.uint64 0) ())).Len = .ok 0 := by
  obtain ⟨hr, habs, hlen⟩ := almostFull_spec
  have hwf := Reachable_WF .bits64 almostFullMap hr
  obtain ⟨s2, hst, _⟩ := Load_Store_same .bits64 almostFullMap hwf (.uint64 0) trivial ()
  have hs2 : orNew (almostFullMap.Store .bits64 (.uint64 0) ()) = s2 := by rw [hst]; rfl
  have hwf2 := WF_Store .bits64 almostFullMap s2 _ _ hwf hst
  have h2 := length_keys_Store_of_not_mem .bits64 almostFullMap s2 hwf _ _ habs hst
  rw [hs2]
  refine ⟨hr, habs, ?_, hst, ?_⟩
  · rw [Len_eq _ (WF_NonNil .bits64 _ hwf), hlen]
    rfl
  · rw [Len_eq _ (WF_NonNil .bits64 _ hwf2), h2, hlen]
    rfl

/-- C12, amended. Store inserts or overwrites in place: in every reachable state
and for every key `k` of a supported type, `Store(k, v)` returns, afterwards
`Load(k)` returns `(v, true)` and `k` is held once, with the value `v` only; when
`k` was present the number of keys and `Len()` are unchanged; when `k` was absent
the number of keys is one more than before, and `Len()`, before and after, is that
number modulo `2^32` (so one more than before whenever fewer than `2^32 - 1` keys
were present). -/
theorem store_inserts_or_overwrites (arch : Arch) (s : ShardMap V) (hs : Reachable arch s)
    (k : Key) (hk : k.Supported) (v : V) :
    ∃ s1, s.Store arch k v = .ok s1 ∧ s1.Load arch k = .ok (some v) ∧
      s1.keys.count k = 1 ∧ (∀ v2, (k, v2) ∈ s1.entries → v2 = v) ∧
      (k ∈ s.keys → s1.keys.length = s.keys.length ∧ s1.Len = s.Len) ∧
      (k ∉ s.keys → s1.keys.length = s.keys.length + 1 ∧
        s.Len = .ok (s.keys.length % 2 ^ 32) ∧
        s1.Len = .ok ((s.keys.length + 1) % 2 ^ 32) ∧
        (s.keys.length + 1 < 2 ^ 32 →
          s.Len = .ok s.keys.length ∧ s1.Len = .ok (s.keys.length + 1))) := by
  have hwf := Reachable_WF arch s hs
  obtain ⟨s1, hst, hl⟩ := Load_Store_same arch s hwf k hk v
  have hwf1 := WF_Store arch s s1 k v hwf hst
  have hlen := Len_eq s (WF_NonNil arch s hwf)
  have hlen1 := Len_eq s1 (WF_NonNil arch s1 hwf1)
  refine ⟨s1, hst, hl, ?_, ?_, ?_, ?_⟩
  · exact List.count_eq_one_of_mem (WF_keys_nodup arch s1 hwf1)
      ((mem_keys_Store arch s s1 hwf k k v hst).2 (Or.inl rfl))
  · intro v2 h2
    have := (mem_entries_iff_Load arch s1 hwf1 k v2).1 h2
    rw [hl] at this
    exact (Option.some.inj (Except.ok.inj this)).symm
  · intro hmem
    have h := length_keys_Store_of_mem arch s s1 hwf k v hmem hst
    exact ⟨h, by rw [hlen, hlen1, h]⟩
  · intro habs
    have h := length_keys_Store_of_not_mem arch s s1 hwf k v habs hst
    refine ⟨h, hlen, by rw [hlen1, h], ?_⟩
    intro hlt
    rw [hlen, hlen1, h, Nat.mod_eq_of_lt hlt, Nat.mod_eq_of_lt (by omega)]
    exact ⟨rfl, rfl⟩

/-- Instance of C12 on the map of the tests: "key1" is overwritten. -/
theorem store_inserts_or_overwrites_witness :
    Reachable .bits64 twoKeys ∧ (Key.string (utf8 "key1")).Supported ∧
    ∃ s1, twoKeys.Store .bits64 (.string (utf8 "key1")) "v" = .ok s1 ∧
      s1.Load .bits64 (.string (utf8 "key1")) = .ok (some "v") ∧
      s1.keys.count (.string (utf8 "key1")) = 1 ∧
      (∀ v2, (Key.string (utf8 "key1"), v2) ∈ s1.entries → v2 = "v") ∧
      (Key.string (utf8 "key1") ∈ twoKeys.keys →
        s1.keys.length = twoKeys.keys.length ∧ s1.Len = twoKeys.Len) ∧
      (Key.string (utf8 "key1") ∉ twoKeys.keys → s1.keys.length = twoKeys.keys.length + 1 ∧
        twoKeys.Len = .ok (twoKeys.keys.length % 2 ^ 32) ∧
        s1.Len = .ok ((twoKeys.keys.length + 1) % 2 ^ 32) ∧
        (twoKeys.keys.length + 1 < 2 ^ 32 →
          twoKeys.Len = .ok twoKeys.keys.length ∧
          s1.Len = .ok (twoKeys.keys.length + 1))) :=
  ⟨Reachable_twoKeys, by decide,
    store_inserts_or_overwrites .bits64 twoKeys Reachable_twoKeys (.string (utf8 "key1"))
      (by decide) "v"⟩

end ShardMap

end Shardmap

namespace Shardmap

namespace ShardMap

variable {V : Type}

/-! ## Stores of different keys, in any order -/

theorem storeAll_Load_other (arch : Arch) :
    ∀ (kvs : List (Key × V)) (s s1 : ShardMap V) (k : Key), Reachable arch s →
      k ∉ kvs.map Prod.fst → storeAll arch kvs s = .ok s1 → s1.Load arch k = s.Load arch k
  | [], s, s1, k, _, _, h => by
    rw [← Except.ok.inj h]
  | e :: rest, s, s1, k, hs, hk, h => by
    rw [storeAll] at h
    cases h0 : s.Store arch e.1 e.2 with
    | error err => rw [h0] at h; cases h
    | ok s0 =>
      rw [h0] at h
      rw [List.map_cons, List.mem_cons, not_or] at hk
      rw [storeAll_Load_other arch rest s0 s1 k (Reachable.store e.1 e.2 hs h0) hk.2 h]
      exact Load_Store_other arch s s0 (Reachable_WF arch s hs) e.1 k e.2 hk.1 h0

/-- After pairs with pairwise different keys of supported types have been stored one
after the other, in whatever order, every stored key loads the value stored with it. -/
theorem storeAll_Load (arch : Arch) :
    ∀ (kvs : List (Key × V)) (s : ShardMap V), Reachable arch s →
      (kvs.map Prod.fst).Nodup → (∀ e ∈ kvs, e.1.Supported) →
      ∃ s1, storeAll arch kvs s = .ok s1 ∧ ∀ e ∈ kvs, s1.Load arch e.1 = .ok (some e.2)
  | [], s, _, _, _ => ⟨s, rfl, fun e he => absurd he (List.not_mem_nil _)⟩
  | e :: rest, s, hs, hn, hsup => by
    have hwf := Reachable_WF arch s hs
    obtain ⟨s0, h0, hl0⟩ := Load_Store_same arch s hwf e.1
      (hsup e (List.mem_cons_self _ _)) e.2
    have hs0 : Reachable arch s0 := Reachable.store e.1 e.2 hs h0
    rw [List.map_cons, List.nodup_cons] at hn
    obtain ⟨s1, h1, hl1⟩ := storeAll_Load arch rest s0 hs0 hn.2
      (fun x hx => hsup x (List.mem_cons_of_mem _ hx))
    refine ⟨s1, ?_, ?_⟩
    · rw [storeAll, h0]
      exact h1
    · intro x hx
      rcases List.mem_cons.1 hx with h | h
      · rw [h, storeAll_Load_other arch rest s0 s1 e.1 hs0 hn.1 h1]
        exact hl0
      · exact hl1 x h

end ShardMap

end Shardmap
